import Mathlib

/-!
Verification of the xmlfrob rewrite engine (src/xmlfrob.go).

The program reads an XML document token by token (Go `encoding/xml`
`Decoder.RawToken`), applies attribute modifications addressed by element
path, and re-emits the tokens through `xml.Encoder.EncodeToken`, patching
the output buffer to produce self-closing tags for empty elements.

The embedding works at the token level: a document is the list of raw
tokens the decoder yields (start tags, end tags, character data,
comments), possibly followed by a lexing failure.  Byte buffers (the
output buffer and the traversal-path buffer of `frobnicate`) are modelled
as `List Char`.  The serialization of each token follows the Go
`encoding/xml` printer: `writeStart`, `writeEnd`, `escapeText` (with its
two newline-escaping modes) and the tag-stack well-formedness errors of
`EncodeToken`.  `log.Fatalf` (process termination) and `panic` are
distinct constructors of the `Outcome` type, separate from the `error`
return value of `frobnicate`.
-/

namespace Xmlfrob

/-- One attribute of a start tag: `xml.Attr` with `Name.Local` and `Value`
(the sources never use namespaces, so names are plain local names). -/
structure Attr where
  name : List Char
  value : List Char
deriving DecidableEq, Repr

/-- A raw XML token as returned by `Decoder.RawToken`; the token kinds the
claims are about (`ProcInst` and `Directive` behave exactly like
`charData`/`comment` in the `default` branch of `frobnicate`). -/
inductive Token where
  | start (name : List Char) (attrs : List Attr)
  | endTag (name : List Char)
  | charData (s : List Char)
  | comment (s : List Char)
deriving DecidableEq, Repr

/-- One event of the token stream feeding `frobnicate`: a token, or a
lexing failure returned by `RawToken` (`io.EOF` is the end of the list). -/
inductive LexEvent where
  | tok (t : Token)
  | lexErr (msg : List Char)
deriving DecidableEq, Repr

/-- The `modification` struct of xmlfrob: element path, attribute name and
the new value for the attribute.  (The Go field `attribute` is called
`attr` here because `attribute` is a Lean keyword.) -/
structure Modification where
  path : List Char
  attr : List Char
  value : List Char
deriving DecidableEq, Repr

/-! ## The modification parser (`parseModifications`) -/

/-- Split a list at the first occurrence of `sep`; `none` when `sep` does
not occur.  `strings.SplitN s sep 2` returns two pieces exactly when this
returns `some`, and one piece (the whole string) when it returns `none`. -/
def splitFirst (sep : Char) : List Char → Option (List Char × List Char)
  | [] => none
  | c :: cs =>
    if c = sep then some ([], cs)
    else match splitFirst sep cs with
      | none => none
      | some (a, b) => some (c :: a, b)

/-- The error message of `parseModifications` for an invalid string;
it quotes the offending input verbatim. -/
def invalidModMsg (mod : List Char) : List Char :=
  "Invalid mod \"".data ++ mod ++ "\": expected syntax /xml/path@attr=newValue".data

/-- One iteration of the `parseModifications` loop: split at the first
`=` (`pathAttrValue`), split the left part at the first `@` (`pathAttr`);
if either separator is missing (`len != 2` in the source) the string is
invalid, otherwise the pieces are path, attribute and value. -/
def parseModification (mod : List Char) : Except (List Char) Modification :=
  match splitFirst '=' mod with
  | none => .error (invalidModMsg mod)
  | some (pathAttr, value) =>
    match splitFirst '@' pathAttr with
    | none => .error (invalidModMsg mod)
    | some (path, attr) => .ok ⟨path, attr, value⟩

/-- `parseModifications`: parse each string, returning at the first
invalid one (the source returns from inside its loop). -/
def parseModifications : List (List Char) → Except (List Char) (List Modification)
  | [] => .ok []
  | m :: ms =>
    match parseModification m with
    | .error e => .error e
    | .ok x =>
      match parseModifications ms with
      | .error e => .error e
      | .ok xs => .ok (x :: xs)

/-! ## The Go `encoding/xml` printer -/

/-- `isInCharacterRange` of `encoding/xml`: runes legal in XML. -/
def isInCharacterRange (r : Nat) : Bool :=
  r == 0x09 || r == 0x0A || r == 0x0D ||
  (0x20 ≤ r && r ≤ 0xD7FF) || (0xE000 ≤ r && r ≤ 0xFFFD) ||
  (0x10000 ≤ r && r ≤ 0x10FFFF)

/-- Escaping of one character, following `escapeText` of `encoding/xml`:
`escNL` tells whether a newline is escaped (it is in attribute values,
not in character data emitted by `EncodeToken`). -/
def escChar (escNL : Bool) (c : Char) : List Char :=
  if c = '"' then "&#34;".data
  else if c = '\'' then "&#39;".data
  else if c = '&' then "&amp;".data
  else if c = '<' then "&lt;".data
  else if c = '>' then "&gt;".data
  else if c = '\t' then "&#x9;".data
  else if c = '\n' then (if escNL then "&#xA;".data else [c])
  else if c = '\r' then "&#xD;".data
  else if isInCharacterRange c.toNat then [c]
  else [Char.ofNat 0xFFFD]

/-- `escapeText` of `encoding/xml` over a byte/char sequence. -/
def escapeText (escNL : Bool) (s : List Char) : List Char :=
  s.foldr (fun c acc => escChar escNL c ++ acc) []

/-- Rendering of one attribute inside a start tag (`writeStart`): a
space, the local name, `="`, the escaped value (newlines escaped), `"`.
An attribute with an empty name is skipped (`continue` in `writeStart`). -/
def renderAttr (a : Attr) : List Char :=
  if a.name = [] then []
  else ' ' :: (a.name ++ '=' :: '"' :: escapeText true a.value) ++ ['"']

/-- Rendering of the attribute list of a start tag. -/
def renderAttrs (attrs : List Attr) : List Char :=
  attrs.foldr (fun a acc => renderAttr a ++ acc) []

/-- `writeStart`: `<name attrs...>`. -/
def renderStartTag (name : List Char) (attrs : List Attr) : List Char :=
  '<' :: (name ++ renderAttrs attrs) ++ ['>']

/-- `writeEnd`: `</name>`. -/
def renderEndTag (name : List Char) : List Char :=
  '<' :: '/' :: name ++ ['>']

/-- The net effect of the self-closing patch of `frobnicate` on an empty
element: the start tag with its final `>` replaced by `/>`. -/
def renderSelfClose (name : List Char) (attrs : List Attr) : List Char :=
  '<' :: (name ++ renderAttrs attrs) ++ ['/', '>']

/-- Whether `pat` occurs as a contiguous subsequence of `s`
(`bytes.Contains`). -/
def containsSeq (pat : List Char) : List Char → Bool
  | [] => pat.isPrefixOf []
  | c :: cs => pat.isPrefixOf (c :: cs) || containsSeq pat cs

/-- `Encoder.EncodeToken` with the printer's tag stack: returns the new
stack and the bytes written, or the error `EncodeToken` returns (start
tag with no name, end tag with no name, unmatched or mismatched end tag,
comment containing the `-->` marker). -/
def encodeToken (tags : List (List Char)) : Token → Except (List Char) (List (List Char) × List Char)
  | .start n attrs =>
    if n = [] then .error "xml: start tag with no name".data
    else .ok (n :: tags, renderStartTag n attrs)
  | .endTag n =>
    if n = [] then .error "xml: end tag with no name".data
    else match tags with
      | [] => .error ("xml: end tag </".data ++ n ++ "> without start tag".data)
      | top :: rest =>
        if top = n then .ok (rest, renderEndTag n)
        else .error ("xml: end tag </".data ++ n ++ "> does not match start tag <".data ++ top ++ ">".data)
  | .charData s => .ok (tags, escapeText false s)
  | .comment s =>
    if containsSeq "-->".data s then .error "xml: EncodeToken of Comment containing --> marker".data
    else .ok (tags, "<!--".data ++ s ++ "-->".data)

/-! ## The rewrite engine (`frobnicate`) -/

/-- The per-attribute update of the inner loop of `frobnicate`: if the
attribute's local name equals the modification's attribute, its value is
replaced (note: every matching attribute is updated, the loop has no
break). -/
def updOne (pat : Modification) (a : Attr) : Attr :=
  if a.name = pat.attr then { a with value := pat.value } else a

/-- One iteration of the outer modification loop: if the current path
equals the modification's path, update every attribute. -/
def applyMod (p : List Char) (attrs : List Attr) (pat : Modification) : List Attr :=
  if p = pat.path then attrs.map (updOne pat) else attrs

/-- The whole modification loop of the `StartElement` branch. -/
def applyMods (mods : List Modification) (p : List Char) (attrs : List Attr) : List Attr :=
  mods.foldl (applyMod p) attrs

/-- The hardcoded suppressed path of `frobnicate`. -/
def pluginPath : List Char :=
  "/project/profiles/profile/build/plugins/plugin".data

/-- `path.Truncate(bytes.LastIndexByte(path.Bytes(), '/'))`: keep
everything strictly before the last `/`; `none` when there is no `/`
(in which case `LastIndexByte` returns `-1` and `Truncate` panics). -/
def truncAtLastSlash : List Char → Option (List Char)
  | [] => none
  | c :: cs =>
    match truncAtLastSlash cs with
    | some t => some (c :: t)
    | none => if c = '/' then some [] else none

/-- The mutable state of the `frobnicate` loop: the output buffer, the
encoder's tag stack, the traversal-path buffer, `previousWasStart`,
`skip` and `pluginNo`. -/
structure FrobState where
  out : List Char
  tags : List (List Char)
  path : List Char
  prevStart : Bool
  skip : Bool
  pluginNo : Nat
deriving DecidableEq, Repr

/-- How the run of `frobnicate` can end: a returned buffer, a returned
error (`return nil, err` after an `EncodeToken` failure), process
termination through `log.Fatalf`, or a runtime panic. -/
inductive Outcome where
  | ok (out : List Char)
  | err (msg : List Char)
  | fatal (msg : List Char)
  | panicked (msg : List Char)
deriving DecidableEq, Repr

/-- The body of the token loop of `frobnicate` for one token, translated
branch by branch from the `switch` statement. -/
def frobStep (mods : List Modification) (st : FrobState) (t : Token) : Except Outcome FrobState :=
  match t with
  | .start n attrs =>
    let path := st.path ++ '/' :: n
    let sp : Bool × Nat :=
      if path = pluginPath then (st.pluginNo == 0 || st.pluginNo == 1, st.pluginNo + 1)
      else (st.skip, st.pluginNo)
    let attrs2 := applyMods mods path attrs
    if sp.1 then
      .ok { st with path := path, prevStart := true, skip := sp.1, pluginNo := sp.2 }
    else
      match encodeToken st.tags (.start n attrs2) with
      | .error e => .error (.err e)
      | .ok (tags, s) =>
        .ok ⟨st.out ++ s, tags, path, true, sp.1, sp.2⟩
  | .endTag n =>
    let cur := st.path
    match truncAtLastSlash st.path with
    | none => .error (.panicked "bytes.Buffer: truncation out of range".data)
    | some path =>
      let skip2 : Bool := if cur = pluginPath then false else st.skip
      if st.skip then
        .ok { st with path := path, skip := skip2 }
      else if st.prevStart then
        match st.out.getLast? with
        | none => .error (.panicked "runtime error: index out of range".data)
        | some c =>
          if c = '>' then
            match encodeToken st.tags (.endTag n) with
            | .error e => .error (.err e)
            | .ok (tags, _) =>
              .ok ⟨st.out.dropLast ++ "/>".data, tags, path, false, skip2, st.pluginNo⟩
          else .error (.panicked "expected > token as last byte in output".data)
      else
        match encodeToken st.tags (.endTag n) with
        | .error e => .error (.err e)
        | .ok (tags, s) =>
          .ok ⟨st.out ++ s, tags, path, false, skip2, st.pluginNo⟩
  | .charData _ | .comment _ =>
    if st.skip then
      .ok { st with prevStart := false }
    else
      match encodeToken st.tags t with
      | .error e => .error (.err e)
      | .ok (tags, s) =>
        .ok { st with out := st.out ++ s, tags := tags, prevStart := false }

/-- Running the loop body over a list of tokens, threading the state. -/
def frobRun (mods : List Modification) : FrobState → List Token → Except Outcome FrobState
  | st, [] => .ok st
  | st, t :: ts =>
    match frobStep mods st t with
    | .error o => .error o
    | .ok st2 => frobRun mods st2 ts

/-- The full token loop over lexer events: end of the list is `io.EOF`
(normal termination, the buffer is returned after a final flush), a
lexing failure hits `log.Fatalf`. -/
def frobLoop (mods : List Modification) : FrobState → List LexEvent → Outcome
  | st, [] => .ok st.out
  | _, .lexErr msg :: _ =>
    .fatal ("Unexpected error while parsing XML file: ".data ++ msg)
  | st, .tok t :: rest =>
    match frobStep mods st t with
    | .error o => o
    | .ok st2 => frobLoop mods st2 rest

/-- The initial state of `frobnicate`. -/
def initState : FrobState := ⟨[], [], [], false, false, 0⟩

/-- `frobnicate` on a stream of lexer events. -/
def frobnicate (evs : List LexEvent) (mods : List Modification) : Outcome :=
  frobLoop mods initState evs

/-- `frobnicate` on a document whose lexing succeeds entirely. -/
def frobTokens (ts : List Token) (mods : List Modification) : Outcome :=
  frobnicate (ts.map .tok) mods

/-! ## Specification-level definitions

These are written from the spec's words, for comparison with the
translated code: the canonical serialization with empty elements
self-closed, the per-token meaning of the modification pass, and the
traversal-path bookkeeping. -/

/-- The traversal path of a stack of open element names (head = innermost). -/
def renderPath : List (List Char) → List Char
  | [] => []
  | n :: stk => renderPath stk ++ '/' :: n

/-- Validity of a single token in the embedding's domain: element names
are nonempty (else `EncodeToken` errors) and slash-free (guaranteed by
the lexer, and needed for the path buffer to pop correctly), comments do
not contain the `-->` marker (guaranteed by the lexer). -/
def validTok : Token → Bool
  | .start n _ => decide (n ≠ []) && decide ('/' ∉ n)
  | .endTag n => decide (n ≠ []) && decide ('/' ∉ n)
  | .charData _ => true
  | .comment s => !(containsSeq "-->".data s)

/-- Balanced tags from a given stack of open elements: every end tag
closes the innermost open element and the document closes every element
it opens (the shape a successful `RawToken` pass over well-formed XML
guarantees). -/
def balAux (stk : List (List Char)) : List Token → Bool
  | [] => decide (stk = [])
  | .start n _ :: rest => balAux (n :: stk) rest
  | .endTag n :: rest =>
    match stk with
    | [] => false
    | m :: stk2 => decide (m = n) && balAux stk2 rest
  | _ :: rest => balAux stk rest

/-- No start tag of the list reaches the hardcoded suppressed path when
the traversal starts at path `p`. -/
def noPluginFrom (p : List Char) : List Token → Bool
  | [] => true
  | .start n _ :: rest =>
    decide (p ++ '/' :: n ≠ pluginPath) && noPluginFrom (p ++ '/' :: n) rest
  | .endTag _ :: rest => noPluginFrom ((truncAtLastSlash p).getD []) rest
  | _ :: rest => noPluginFrom p rest

/-- Well-formed document in the embedding's domain: balanced from the
empty stack, valid tokens, no element at the suppressed path. -/
def wfTokens (ts : List Token) : Bool :=
  balAux [] ts && ts.all validTok && noPluginFrom [] ts

/-- The canonical serialization of a token stream: each token rendered
exactly as the Go encoder renders it, except that a start tag
immediately followed by its matching end tag becomes one self-closing
tag — the shape the spec requires of the output. -/
def normSerialize : List Token → List Char
  | [] => []
  | .start n attrs :: .endTag m :: rest2 =>
    if n = m then renderSelfClose n attrs ++ normSerialize rest2
    else renderStartTag n attrs ++ (renderEndTag m ++ normSerialize rest2)
  | .start n attrs :: rest => renderStartTag n attrs ++ normSerialize rest
  | .endTag n :: rest => renderEndTag n ++ normSerialize rest
  | .charData s :: rest => escapeText false s ++ normSerialize rest
  | .comment s :: rest => "<!--".data ++ (s ++ ("-->".data ++ normSerialize rest))

/-- The token-level meaning of the modification pass: apply the
modification loop to the attributes of every start tag, addressed by the
traversal path, leaving everything else unchanged. -/
def mapTokens (mods : List Modification) (p : List Char) : List Token → List Token
  | [] => []
  | .start n attrs :: rest =>
    .start n (applyMods mods (p ++ '/' :: n) attrs) :: mapTokens mods (p ++ '/' :: n) rest
  | .endTag n :: rest => .endTag n :: mapTokens mods ((truncAtLastSlash p).getD []) rest
  | t :: rest => t :: mapTokens mods p rest

/-- The traversal path after processing a list of tokens. -/
def pathAfter (p : List Char) : List Token → List Char
  | [] => p
  | .start n _ :: rest => pathAfter (p ++ '/' :: n) rest
  | .endTag _ :: rest => pathAfter ((truncAtLastSlash p).getD []) rest
  | _ :: rest => pathAfter p rest

/-- The traversal paths of all start tags of a token list, starting from
path `p`. -/
def startPathsFrom (p : List Char) : List Token → List (List Char)
  | [] => []
  | .start n _ :: rest => (p ++ '/' :: n) :: startPathsFrom (p ++ '/' :: n) rest
  | .endTag _ :: rest => startPathsFrom ((truncAtLastSlash p).getD []) rest
  | _ :: rest => startPathsFrom p rest

/-- The value an attribute named `nm` ends up with after the
modification loop runs at path `p`, starting from value `v`: the last
matching modification wins. -/
def finalValue (mods : List Modification) (p nm v : List Char) : List Char :=
  mods.foldl (fun acc pat => if p = pat.path ∧ nm = pat.attr then pat.value else acc) v

/-! ## Concrete documents used in counterexamples and witnesses -/

/-- A start tag with no attributes. -/
def mkS (n : String) : Token := .start n.data []

/-- An end tag. -/
def mkE (n : String) : Token := .endTag n.data

/-- A well-formed document (apart from the embedding's no-suppressed-path
condition) holding one empty `plugin` element at the suppressed path. -/
def c2doc : List Token :=
  [mkS "project", mkS "profiles", mkS "profile", mkS "build", mkS "plugins",
   mkS "plugin", mkE "plugin", mkE "plugins", mkE "build", mkE "profile",
   mkE "profiles", mkE "project"]

/-- Like `c2doc` but the `plugin` start tag carries an attribute. -/
def c3doc : List Token :=
  [mkS "project", mkS "profiles", mkS "profile", mkS "build", mkS "plugins",
   .start "plugin".data [⟨"id".data, "1".data⟩], mkE "plugin", mkE "plugins",
   mkE "build", mkE "profile", mkE "profiles", mkE "project"]

/-- Two sibling `profile` scopes: the first holds two `plugin` elements
at the suppressed path, the second holds one. -/
def c7doc : List Token :=
  [mkS "project", mkS "profiles",
   mkS "profile", mkS "build", mkS "plugins", mkS "plugin", mkE "plugin",
   mkS "plugin", mkE "plugin", mkE "plugins", mkE "build", mkE "profile",
   mkS "profile", mkS "build", mkS "plugins", mkS "plugin", mkE "plugin",
   mkE "plugins", mkE "build", mkE "profile",
   mkE "profiles", mkE "project"]

/-- Three `plugin` elements at the suppressed path. -/
def c8doc : List Token :=
  [mkS "project", mkS "profiles", mkS "profile", mkS "build", mkS "plugins",
   mkS "plugin", mkE "plugin", mkS "plugin", mkE "plugin", mkS "plugin",
   mkE "plugin", mkE "plugins", mkE "build", mkE "profile", mkE "profiles",
   mkE "project"]

/-- The token stream of the output of `frobnicate` on `c8doc` (the two
first `plugin` subtrees dropped, the third kept self-closing — which the
decoder returns as a start/end pair). -/
def c8mid : List Token :=
  [mkS "project", mkS "profiles", mkS "profile", mkS "build", mkS "plugins",
   mkS "plugin", mkE "plugin", mkE "plugins", mkE "build", mkE "profile",
   mkE "profiles", mkE "project"]

/-- The spec's concrete scenario: `<server>\n  <connector port="8080"/>\n</server>`. -/
def serverDoc : List Token :=
  [.start "server".data [], .charData "\n  ".data,
   .start "connector".data [⟨"port".data, "8080".data⟩], .endTag "connector".data,
   .charData "\n".data, .endTag "server".data]

/-- The spec's concrete modification `/server/connector@port=8181`. -/
def serverMod : Modification :=
  ⟨"/server/connector".data, "port".data, "8181".data⟩

/-! ## Counterexamples -/

/-- C1 counterexample: on the well-formed document `<a></a>` with the
single modification `/a@x=1`, whose path matches exactly one element
occurrence, the output is `<a/>` — identical to the run without the
modification — and the modification's value `1` appears nowhere in it:
the rewrite loop only replaces existing attributes, it never adds the
named attribute when the element lacks it. -/
theorem c1_counterexample :
    frobTokens [.start "a".data [], .endTag "a".data]
        [⟨"/a".data, "x".data, "1".data⟩] = .ok "<a/>".data
      ∧ frobTokens [.start "a".data [], .endTag "a".data] [] = .ok "<a/>".data
      ∧ '1' ∉ "<a/>".data :=
  ⟨rfl, rfl, by decide⟩

/-- C2 counterexample: `c2doc` is a balanced, valid document and the
modification list is empty, yet the output of `frobnicate` is not the
input with empty-bodied elements self-closed (`normSerialize c2doc`):
the `plugin` element at the hardcoded suppressed path is dropped
entirely. -/
theorem c2_counterexample :
    balAux [] c2doc = true ∧ c2doc.all validTok = true
      ∧ frobTokens c2doc []
          = .ok "<project><profiles><profile><build><plugins/></build></profile></profiles></project>".data
      ∧ normSerialize c2doc
          = "<project><profiles><profile><build><plugins><plugin/></plugins></build></profile></profiles></project>".data
      ∧ frobTokens c2doc [] ≠ .ok (normSerialize c2doc) :=
  ⟨rfl, rfl, rfl, rfl, by decide⟩

/-- C3 counterexample: in `c3doc` the start tag
`<plugin id="1">` is immediately followed by its matching end tag, yet
the emitted output holds no self-closing tag for it (the element sits at
the hardcoded suppressed path and is dropped, first occurrence). -/
theorem c3_counterexample :
    frobTokens c3doc []
        = .ok "<project><profiles><profile><build><plugins/></build></profile></profiles></project>".data
      ∧ containsSeq (renderSelfClose "plugin".data [⟨"id".data, "1".data⟩])
          "<project><profiles><profile><build><plugins/></build></profile></profiles></project>".data = false
      ∧ containsSeq "id=".data
          "<project><profiles><profile><build><plugins/></build></profile></profiles></project>".data = false :=
  ⟨rfl, by decide, by decide⟩

/-- C4 counterexample: `a@b@c=v` has two `@` characters before its first
`=`, which the claim says is rejected; `parseModifications` accepts it,
splitting at the first `@` (the attribute name keeps the rest). -/
theorem c4_counterexample :
    parseModifications ["a@b@c=v".data] = .ok [⟨"a".data, "b@c".data, "v".data⟩]
      ∧ ∀ e, parseModifications ["a@b@c=v".data] ≠ .error e := by
  refine ⟨rfl, fun e h => ?_⟩
  rw [show parseModifications ["a@b@c=v".data]
        = .ok [(⟨"a".data, "b@c".data, "v".data⟩ : Modification)] from rfl] at h
  exact Except.noConfusion h

/-- C5 counterexample: `@attr=val` has an empty PATH part, which the
claim says fails to parse; `parseModifications` accepts it and produces
a modification with an empty path. -/
theorem c5_counterexample :
    parseModifications ["@attr=val".data] = .ok [⟨[], "attr".data, "val".data⟩]
      ∧ ∀ e, parseModifications ["@attr=val".data] ≠ .error e := by
  refine ⟨rfl, fun e h => ?_⟩
  rw [show parseModifications ["@attr=val".data]
        = .ok [(⟨[], "attr".data, "val".data⟩ : Modification)] from rfl] at h
  exact Except.noConfusion h

/-- C6 counterexample: a start tag with two attributes both named `p`
and a matching modification `/a@p=9`: the output replaces BOTH values
(the inner loop has no break), where the claim predicts only the first
is replaced and the second keeps its original value `2`. -/
theorem c6_counterexample :
    frobTokens [.start "a".data [⟨"p".data, "1".data⟩, ⟨"p".data, "2".data⟩], .endTag "a".data]
        [⟨"/a".data, "p".data, "9".data⟩]
        = .ok "<a p=\"9\" p=\"9\"/>".data
      ∧ "<a p=\"9\" p=\"9\"/>".data ≠ "<a p=\"9\" p=\"2\"/>".data :=
  ⟨rfl, by decide⟩

/-- C7 counterexample: in `c7doc` the first `profile` scope holds two
suppressed-path elements and the second scope holds one.  The claim
predicts the counter resets when the first scope closes, so the second
scope's first `plugin` would be dropped as well; the code keeps it (the
counter is global and never reset). -/
theorem c7_counterexample :
    frobTokens c7doc []
        = .ok "<project><profiles><profile><build><plugins/></build></profile><profile><build><plugins><plugin/></plugins></build></profile></profiles></project>".data
      ∧ "<project><profiles><profile><build><plugins/></build></profile><profile><build><plugins><plugin/></plugins></build></profile></profiles></project>".data
          ≠ "<project><profiles><profile><build><plugins/></build></profile><profile><build><plugins/></build></profile></profiles></project>".data :=
  ⟨rfl, by decide⟩

/-- C8 counterexample: `c8doc` holds three suppressed-path elements.
One pass keeps the third (`c8once`); its output re-lexes to `c8mid`
(certified by `normSerialize c8mid = c8once`), and a second pass drops
that remaining element, so rewrite ∘ rewrite ≠ rewrite. -/
theorem c8_counterexample :
    frobTokens c8doc []
        = .ok "<project><profiles><profile><build><plugins><plugin/></plugins></build></profile></profiles></project>".data
      ∧ normSerialize c8mid
          = "<project><profiles><profile><build><plugins><plugin/></plugins></build></profile></profiles></project>".data
      ∧ frobTokens c8mid []
          = .ok "<project><profiles><profile><build><plugins/></build></profile></profiles></project>".data
      ∧ ("<project><profiles><profile><build><plugins/></build></profile></profiles></project>".data : List Char)
          ≠ "<project><profiles><profile><build><plugins><plugin/></plugins></build></profile></profiles></project>".data :=
  ⟨rfl, rfl, rfl, by decide⟩

/-! ## Properties of the modification parser -/

theorem splitFirst_none_iff (sep : Char) (s : List Char) :
    splitFirst sep s = none ↔ sep ∉ s := by
  induction s with
  | nil => simp [splitFirst]
  | cons c cs ih =>
    by_cases h : c = sep
    · subst h
      simp [splitFirst]
    · cases hs : splitFirst sep cs with
      | none =>
        simp only [splitFirst, if_neg h, hs]
        constructor
        · intro _ hmem
          rcases List.mem_cons.mp hmem with hEq | hm
          · exact h hEq.symm
          · exact (ih.mp hs) hm
        · intro _
          trivial
      | some p =>
        simp only [splitFirst, if_neg h, hs]
        constructor
        · intro hFalse
          exact Option.noConfusion hFalse
        · intro hmem
          exfalso
          exact hmem (List.mem_cons_of_mem c (by
            by_contra hnot
            rw [ih.mpr hnot] at hs
            exact Option.noConfusion hs))

theorem splitFirst_eq_some (sep : Char) (s a b : List Char)
    (h : splitFirst sep s = some (a, b)) : s = a ++ sep :: b ∧ sep ∉ a := by
  induction s generalizing a b with
  | nil => exact Option.noConfusion h
  | cons c cs ih =>
    by_cases hc : c = sep
    · subst hc
      rw [show splitFirst c (c :: cs) = some ([], cs) by simp [splitFirst]] at h
      injection h with h
      injection h with h1 h2
      subst h1
      subst h2
      simp
    · cases hs : splitFirst sep cs with
      | none =>
        simp only [splitFirst, if_neg hc, hs] at h
        exact Option.noConfusion h
      | some p =>
        obtain ⟨a2, b2⟩ := p
        simp only [splitFirst, if_neg hc, hs, Option.some.injEq, Prod.mk.injEq] at h
        obtain ⟨ha, hb⟩ := h
        obtain ⟨hs1, hn1⟩ := ih a2 b2 hs
        subst hb
        subst ha
        constructor
        · rw [hs1]
          rfl
        · intro hmem
          rcases List.mem_cons.mp hmem with hEq | hm
          · exact hc hEq.symm
          · exact hn1 hm

theorem splitFirst_append (sep : Char) (a b : List Char) (h : sep ∉ a) :
    splitFirst sep (a ++ sep :: b) = some (a, b) := by
  induction a with
  | nil => simp [splitFirst]
  | cons c cs ih =>
    have hc : c ≠ sep := fun hEq => h (hEq ▸ List.mem_cons_self c cs)
    have hcs : sep ∉ cs := fun hmem => h (List.mem_cons_of_mem c hmem)
    simp [splitFirst, hc, ih hcs]

theorem parseModification_none1 (mod : List Char) (h1 : splitFirst '=' mod = none) :
    parseModification mod = .error (invalidModMsg mod) := by
  simp only [parseModification, h1]

theorem parseModification_none2 (mod pa v : List Char)
    (h1 : splitFirst '=' mod = some (pa, v)) (h2 : splitFirst '@' pa = none) :
    parseModification mod = .error (invalidModMsg mod) := by
  simp only [parseModification, h1, h2]

theorem parseModification_some (mod pa v pth att : List Char)
    (h1 : splitFirst '=' mod = some (pa, v)) (h2 : splitFirst '@' pa = some (pth, att)) :
    parseModification mod = .ok ⟨pth, att, v⟩ := by
  simp only [parseModification, h1, h2]

/-- C4 (amended): `parseModifications` fails, with a message quoting the
offending string verbatim, exactly when some string lacks an `=` or
lacks at least one `@` before its first `=`; a string with two or more
`@` before the first `=` is ACCEPTED, splitting at the first `@` (the
attribute name keeps the rest).  Parsing is fail-fast (the first
offending string's error is returned), and every string
`PATH@ATTR=VALUE` whose PATH and ATTR are `=`-free and whose PATH is
`@`-free parses to that triple. -/
theorem c4_amended :
    (∀ mod path attr value,
        parseModification mod = .ok ⟨path, attr, value⟩
          ↔ mod = path ++ '@' :: attr ++ '=' :: value
              ∧ '=' ∉ path ∧ '=' ∉ attr ∧ '@' ∉ path)
      ∧ (∀ mod e, parseModification mod = .error e → e = invalidModMsg mod)
      ∧ (∀ mod, (∃ e, parseModification mod = .error e)
          ↔ (splitFirst '=' mod = none
             ∨ ∃ pa v, splitFirst '=' mod = some (pa, v) ∧ splitFirst '@' pa = none))
      ∧ (∀ ms1 bad ms2 e, (∀ x ∈ ms1, ∃ y, parseModification x = .ok y)
          → parseModification bad = .error e
          → parseModifications (ms1 ++ bad :: ms2) = .error e) := by
  refine ⟨?_, ?_, ?_, ?_⟩
  · intro mod path attr value
    constructor
    · intro h
      cases h1 : splitFirst '=' mod with
      | none => rw [parseModification_none1 mod h1] at h; exact Except.noConfusion h
      | some p1 =>
        obtain ⟨pa, v⟩ := p1
        cases h2 : splitFirst '@' pa with
        | none => rw [parseModification_none2 mod pa v h1 h2] at h; exact Except.noConfusion h
        | some p2 =>
          obtain ⟨pth, att⟩ := p2
          rw [parseModification_some mod pa v pth att h1 h2] at h
          simp only [Except.ok.injEq, Modification.mk.injEq] at h
          obtain ⟨hp, ha, hv⟩ := h
          subst hp
          subst ha
          subst hv
          obtain ⟨hs1, hn1⟩ := splitFirst_eq_some '=' mod pa v h1
          obtain ⟨hs2, hn2⟩ := splitFirst_eq_some '@' pa pth att h2
          subst hs2
          refine ⟨by simp [hs1], ?_, ?_, hn2⟩
          · intro hmem
            exact hn1 (by simp [hmem])
          · intro hmem
            exact hn1 (by simp [hmem])
    · rintro ⟨hmod, hep, hea, hap⟩
      subst hmod
      have h1 : splitFirst '=' ((path ++ '@' :: attr) ++ '=' :: value)
          = some (path ++ '@' :: attr, value) := by
        apply splitFirst_append
        intro hmem
        rcases List.mem_append.mp hmem with hm | hm
        · exact hep hm
        · rcases List.mem_cons.mp hm with hEq | hm2
          · exact absurd hEq (by decide)
          · exact hea hm2
      have h1b : splitFirst '=' (path ++ '@' :: attr ++ '=' :: value)
          = some (path ++ '@' :: attr, value) := by
        rw [show path ++ '@' :: attr ++ '=' :: value
            = (path ++ '@' :: attr) ++ '=' :: value by simp]
        exact h1
      exact parseModification_some _ _ _ _ _ h1b (splitFirst_append '@' path attr hap)
  · intro mod e h
    cases h1 : splitFirst '=' mod with
    | none =>
      rw [parseModification_none1 mod h1] at h
      simp only [Except.error.injEq] at h
      exact h.symm
    | some p1 =>
      obtain ⟨pa, v⟩ := p1
      cases h2 : splitFirst '@' pa with
      | none =>
        rw [parseModification_none2 mod pa v h1 h2] at h
        simp only [Except.error.injEq] at h
        exact h.symm
      | some p2 =>
        obtain ⟨pth, att⟩ := p2
        rw [parseModification_some mod pa v pth att h1 h2] at h
        exact Except.noConfusion h
  · intro mod
    constructor
    · rintro ⟨e, h⟩
      cases h1 : splitFirst '=' mod with
      | none => exact Or.inl rfl
      | some p1 =>
        obtain ⟨pa, v⟩ := p1
        cases h2 : splitFirst '@' pa with
        | none => exact Or.inr ⟨pa, v, rfl, h2⟩
        | some p2 =>
          obtain ⟨pth, att⟩ := p2
          rw [parseModification_some mod pa v pth att h1 h2] at h
          exact Except.noConfusion h
    · rintro (h1 | ⟨pa, v, h1, h2⟩)
      · exact ⟨invalidModMsg mod, parseModification_none1 mod h1⟩
      · exact ⟨invalidModMsg mod, parseModification_none2 mod pa v h1 h2⟩
  · intro ms1 bad ms2 e hok hbad
    induction ms1 with
    | nil => simp only [List.nil_append, parseModifications, hbad]
    | cons x xs ih =>
      obtain ⟨y, hy⟩ := hok x (List.mem_cons_self x xs)
      simp only [List.cons_append, parseModifications, hy, List.append_eq]
      rw [ih (fun z hz => hok z (List.mem_cons_of_mem x hz))]

/-- C5 (amended): a string beginning with `@` (empty PATH) parses
successfully: `@ATTR=VALUE` with an `=`-free ATTR yields the
modification with empty path.  The parser never validates that the path
is nonempty. -/
theorem c5_amended (attr v : List Char) (h : '=' ∉ attr) :
    parseModification ('@' :: attr ++ '=' :: v) = .ok ⟨[], attr, v⟩ := by
  have h1 : splitFirst '=' (('@' :: attr) ++ '=' :: v) = some ('@' :: attr, v) := by
    apply splitFirst_append
    intro hmem
    rcases List.mem_cons.mp hmem with hEq | hm
    · exact absurd hEq (by decide)
    · exact h hm
  have h2 : splitFirst '@' ('@' :: attr) = some ([], attr) := by
    simp [splitFirst]
  exact parseModification_some _ _ _ _ _ h1 h2

/-- C5 witness: the amended statement at the concrete input `@attr=val`. -/
theorem c5_amended_witness :
    ('=' ∉ "attr".data)
      ∧ parseModification ('@' :: "attr".data ++ '=' :: "val".data)
          = .ok ⟨[], "attr".data, "val".data⟩ :=
  ⟨by decide, c5_amended "attr".data "val".data (by decide)⟩

/-! ## Properties of the modification loop -/

theorem finalValue_cons (pat : Modification) (mods : List Modification) (p nm v : List Char) :
    finalValue (pat :: mods) p nm v
      = finalValue mods p nm (if p = pat.path ∧ nm = pat.attr then pat.value else v) := rfl

theorem finalValue_nomatch (mods : List Modification) (p nm v : List Char)
    (h : ∀ pat ∈ mods, ¬(p = pat.path ∧ nm = pat.attr)) :
    finalValue mods p nm v = v := by
  induction mods generalizing v with
  | nil => rfl
  | cons pat mods ih =>
    rw [finalValue_cons, if_neg (h pat (List.mem_cons_self pat mods))]
    exact ih v (fun q hq => h q (List.mem_cons_of_mem pat hq))

/-- Pointwise description of the modification loop: every attribute
keeps its name and receives the value of the last matching
modification. -/
theorem applyMods_eq_map (mods : List Modification) (p : List Char) (attrs : List Attr) :
    applyMods mods p attrs
      = attrs.map fun a => ⟨a.name, finalValue mods p a.name a.value⟩ := by
  induction mods generalizing attrs with
  | nil =>
    simp only [applyMods, List.foldl_nil]
    symm
    have h : ∀ a ∈ attrs,
        (fun a : Attr => (⟨a.name, finalValue [] p a.name a.value⟩ : Attr)) a = id a :=
      fun a _ => rfl
    rw [List.map_congr_left h, List.map_id]
  | cons pat mods ih =>
    have hstep : applyMods (pat :: mods) p attrs = applyMods mods p (applyMod p attrs pat) := rfl
    rw [hstep, ih]
    by_cases hp : p = pat.path
    · simp only [applyMod, if_pos hp, List.map_map]
      apply List.map_congr_left
      intro a _
      simp only [Function.comp_apply, updOne]
      by_cases hn : a.name = pat.attr
      · simp [hn, finalValue_cons, hp]
      · simp [hn, finalValue_cons, hp]
    · simp only [applyMod, if_neg hp]
      apply List.map_congr_left
      intro a _
      rw [finalValue_cons, if_neg (fun hAnd => hp hAnd.1)]

/-- C10: when several modifications share path and attribute name, the
one occurring last in the list provides the value that ends up on every
matching attribute: the loop applies modifications in list order, later
matches overwriting earlier ones. -/
theorem c10_last_modification_wins :
    (∀ mods p attrs, applyMods mods p attrs
        = attrs.map fun a => ⟨a.name, finalValue mods p a.name a.value⟩)
      ∧ (∀ ms1 ms2 ms3 (m1 m2 : Modification) p nm v,
          p = m1.path → p = m2.path → nm = m1.attr → nm = m2.attr
          → (∀ pat ∈ ms3, ¬(p = pat.path ∧ nm = pat.attr))
          → finalValue (ms1 ++ m1 :: ms2 ++ m2 :: ms3) p nm v = m2.value) := by
  refine ⟨applyMods_eq_map, ?_⟩
  intro ms1 ms2 ms3 m1 m2 p nm v hp1 hp2 hn1 hn2 h3
  simp only [finalValue, List.foldl_append, List.foldl_cons]
  rw [if_pos ⟨hp2, hn2⟩]
  exact finalValue_nomatch ms3 p nm m2.value h3

/-- C6 (amended): when a modification's path matches the current
traversal path, EVERY attribute of the start tag whose local name equals
the modification's attribute receives the new value — the inner loop has
no break, so duplicated attribute names are all replaced, not only the
first. -/
theorem c6_amended (st : FrobState) (pat : Modification) (n : List Char) (attrs : List Attr)
    (hskip : st.skip = false) (hn : n ≠ [])
    (hpath : st.path ++ '/' :: n = pat.path)
    (hplug : st.path ++ '/' :: n ≠ pluginPath) :
    frobStep [pat] st (.start n attrs)
        = .ok ⟨st.out ++ renderStartTag n (attrs.map (updOne pat)), n :: st.tags,
               st.path ++ '/' :: n, true, false, st.pluginNo⟩
      ∧ ∀ a ∈ attrs.map (updOne pat), a.name = pat.attr → a.value = pat.value := by
  constructor
  · simp only [frobStep, if_neg hplug, hskip, applyMods, List.foldl_cons, List.foldl_nil,
      applyMod, if_pos hpath, encodeToken, if_neg hn, Bool.false_eq_true, if_false]
  · intro a ha hname
    rw [List.mem_map] at ha
    obtain ⟨b, hb, hba⟩ := ha
    subst hba
    unfold updOne at hname ⊢
    by_cases h : b.name = pat.attr
    · simp [h]
    · rw [if_neg h] at hname ⊢
      exact absurd hname h

/-- C6 witness: the amended statement at a concrete start tag with two
attributes named `p`. -/
theorem c6_amended_witness :
    (initState.skip = false ∧ "a".data ≠ [] ∧
      initState.path ++ '/' :: "a".data = "/a".data ∧
      initState.path ++ '/' :: "a".data ≠ pluginPath)
      ∧ frobStep [⟨"/a".data, "p".data, "9".data⟩] initState
          (.start "a".data [⟨"p".data, "1".data⟩, ⟨"p".data, "2".data⟩])
          = .ok ⟨"<a p=\"9\" p=\"9\">".data, ["a".data], "/a".data, true, false, 0⟩ := by
  refine ⟨⟨rfl, by decide, by decide, by decide⟩, ?_⟩
  have h := (c6_amended initState ⟨"/a".data, "p".data, "9".data⟩ "a".data
    [⟨"p".data, "1".data⟩, ⟨"p".data, "2".data⟩] rfl (by decide) (by decide) (by decide)).1
  rw [h]
  rfl

/-! ## The token loop computes the canonical serialization -/

theorem truncAtLastSlash_no_slash (n : List Char) (h : '/' ∉ n) :
    truncAtLastSlash n = none := by
  induction n with
  | nil => rfl
  | cons c cs ih =>
    have hc : c ≠ '/' := fun hEq => h (hEq ▸ List.mem_cons_self c cs)
    have hcs : '/' ∉ cs := fun hm => h (List.mem_cons_of_mem c hm)
    simp [truncAtLastSlash, ih hcs, hc]

theorem truncAtLastSlash_append (p n : List Char) (h : '/' ∉ n) :
    truncAtLastSlash (p ++ '/' :: n) = some p := by
  induction p with
  | nil => simp [truncAtLastSlash, truncAtLastSlash_no_slash n h]
  | cons c cs ih => simp [truncAtLastSlash, ih]

theorem out_startTag_getLast (out n : List Char) (attrs : List Attr) :
    (out ++ renderStartTag n attrs).getLast? = some '>' := by
  rw [renderStartTag, show out ++ ('<' :: (n ++ renderAttrs attrs) ++ ['>'])
      = (out ++ '<' :: (n ++ renderAttrs attrs)) ++ ['>'] by simp]
  exact List.getLast?_concat _

theorem out_startTag_dropLast (out n : List Char) (attrs : List Attr) :
    (out ++ renderStartTag n attrs).dropLast = out ++ '<' :: (n ++ renderAttrs attrs) := by
  rw [renderStartTag, show out ++ ('<' :: (n ++ renderAttrs attrs) ++ ['>'])
      = (out ++ '<' :: (n ++ renderAttrs attrs)) ++ ['>'] by simp]
  exact List.dropLast_concat ..

theorem dropLast_slash_gt (out n : List Char) (attrs : List Attr) :
    (out ++ renderStartTag n attrs).dropLast ++ "/>".data
      = out ++ renderSelfClose n attrs := by
  rw [out_startTag_dropLast, renderSelfClose,
    show "/>".data = ['/', '>'] from rfl]
  simp

theorem frobStep_start (mods : List Modification) (out : List Char)
    (stk : List (List Char)) (p : List Char) (pv : Bool) (k : Nat)
    (n : List Char) (attrs : List Attr)
    (hplug : p ++ '/' :: n ≠ pluginPath) (hn : n ≠ []) :
    frobStep mods ⟨out, stk, p, pv, false, k⟩ (.start n attrs)
      = .ok ⟨out ++ renderStartTag n (applyMods mods (p ++ '/' :: n) attrs), n :: stk,
             p ++ '/' :: n, true, false, k⟩ := by
  simp [frobStep, encodeToken, hplug, hn]

theorem frobStep_end_noPrev (mods : List Modification) (out : List Char)
    (tags0 : List (List Char)) (p : List Char) (k : Nat) (n : List Char)
    (hn : n ≠ []) (hs : '/' ∉ n) :
    frobStep mods ⟨out, n :: tags0, p ++ '/' :: n, false, false, k⟩ (.endTag n)
      = .ok ⟨out ++ renderEndTag n, tags0, p, false, false, k⟩ := by
  simp [frobStep, truncAtLastSlash_append p n hs, encodeToken, hn]

theorem frobStep_end_prev (mods : List Modification) (out : List Char)
    (tags0 : List (List Char)) (p : List Char) (k : Nat) (n : List Char) (attrs : List Attr)
    (hn : n ≠ []) (hs : '/' ∉ n) :
    frobStep mods ⟨out ++ renderStartTag n attrs, n :: tags0, p ++ '/' :: n, true, false, k⟩
        (.endTag n)
      = .ok ⟨out ++ renderSelfClose n attrs, tags0, p, false, false, k⟩ := by
  have hL : (out ++ renderStartTag n attrs).getLast? = some '>' :=
    out_startTag_getLast out n attrs
  have hD : (out ++ renderStartTag n attrs).dropLast ++ "/>".data
      = out ++ renderSelfClose n attrs :=
    dropLast_slash_gt out n attrs
  simp only [frobStep, truncAtLastSlash_append p n hs, hL, encodeToken, hn, ite_self]
  simp [hD]

theorem frobStep_charData (mods : List Modification) (out : List Char)
    (stk : List (List Char)) (p : List Char) (pv : Bool) (k : Nat) (s : List Char) :
    frobStep mods ⟨out, stk, p, pv, false, k⟩ (.charData s)
      = .ok ⟨out ++ escapeText false s, stk, p, false, false, k⟩ := by
  simp [frobStep, encodeToken]

theorem frobStep_comment (mods : List Modification) (out : List Char)
    (stk : List (List Char)) (p : List Char) (pv : Bool) (k : Nat) (s : List Char)
    (h : containsSeq "-->".data s = false) :
    frobStep mods ⟨out, stk, p, pv, false, k⟩ (.comment s)
      = .ok ⟨out ++ ("<!--".data ++ s ++ "-->".data), stk, p, false, false, k⟩ := by
  simp [frobStep, encodeToken, h]

theorem frobLoop_cons_ok (mods : List Modification) (st st2 : FrobState) (t : Token)
    (evs : List LexEvent) (h : frobStep mods st t = .ok st2) :
    frobLoop mods st (.tok t :: evs) = frobLoop mods st2 evs := by
  simp only [frobLoop, h]

/-- Core invariant of the token loop: over a balanced, valid,
suppression-free token list the loop succeeds, leaves the skip machinery
untouched, and appends to the output exactly the canonical serialization
of the modified token stream.  `N` bounds the list length for the
induction; `pv` (`previousWasStart`) may only be set when the next token
is not an end tag. -/
theorem frobLoop_norm_aux (mods : List Modification) (N : Nat) :
    ∀ (ts : List Token) (stk : List (List Char)) (out : List Char) (k : Nat) (pv : Bool),
      ts.length ≤ N
      → balAux stk ts = true
      → ts.all validTok = true
      → noPluginFrom (renderPath stk) ts = true
      → (pv = true → ∀ n, ts.head? ≠ some (.endTag n))
      → frobLoop mods ⟨out, stk, renderPath stk, pv, false, k⟩ (ts.map .tok)
          = .ok (out ++ normSerialize (mapTokens mods (renderPath stk) ts)) := by
  induction N with
  | zero =>
    intro ts stk out k pv hlen _ _ _ _
    have hts : ts = [] := List.eq_nil_of_length_eq_zero (Nat.le_zero.mp hlen)
    subst hts
    simp [frobLoop, normSerialize, mapTokens]
  | succ N ih =>
    intro ts stk out k pv hlen hbal hval hplug hpv
    cases ts with
    | nil => simp [frobLoop, normSerialize, mapTokens]
    | cons t rest0 =>
      cases t with
      | endTag n =>
        have hpvf : pv = false := by
          cases pv with
          | false => rfl
          | true => exact absurd rfl (hpv rfl n)
        subst hpvf
        cases stk with
        | nil => simp [balAux] at hbal
        | cons m stk2 =>
          simp only [balAux, Bool.and_eq_true, decide_eq_true_eq] at hbal
          obtain ⟨hmn, hbal2⟩ := hbal
          subst hmn
          simp only [List.all_cons, Bool.and_eq_true, validTok, decide_eq_true_eq] at hval
          obtain ⟨⟨hn, hs⟩, hval2⟩ := hval
          have hplug2 : noPluginFrom (renderPath stk2) rest0 = true := by
            have heq : noPluginFrom (renderPath (m :: stk2)) (Token.endTag m :: rest0)
                = noPluginFrom ((truncAtLastSlash (renderPath stk2 ++ '/' :: m)).getD []) rest0 := rfl
            rw [heq, truncAtLastSlash_append _ _ hs] at hplug
            exact hplug
          rw [show renderPath (m :: stk2) = renderPath stk2 ++ '/' :: m from rfl]
          rw [List.map_cons,
            frobLoop_cons_ok mods _ _ _ _
              (frobStep_end_noPrev mods out stk2 (renderPath stk2) k m hn hs),
            ih rest0 stk2 (out ++ renderEndTag m) k false
              (Nat.le_of_succ_le_succ hlen) hbal2 hval2 hplug2
              (fun h => absurd h Bool.false_ne_true)]
          have hmap : mapTokens mods (renderPath stk2 ++ '/' :: m) (Token.endTag m :: rest0)
              = Token.endTag m :: mapTokens mods (renderPath stk2) rest0 := by
            simp [mapTokens, truncAtLastSlash_append _ _ hs]
          rw [hmap]
          simp [normSerialize, List.append_assoc]
      | charData s =>
        simp only [List.all_cons, Bool.and_eq_true] at hval
        obtain ⟨_, hval2⟩ := hval
        rw [List.map_cons,
          frobLoop_cons_ok mods _ _ _ _
            (frobStep_charData mods out stk (renderPath stk) pv k s),
          ih rest0 stk (out ++ escapeText false s) k false
            (Nat.le_of_succ_le_succ hlen) hbal hval2 hplug
            (fun h => absurd h Bool.false_ne_true)]
        simp [mapTokens, normSerialize, List.append_assoc]
      | comment s =>
        simp only [List.all_cons, Bool.and_eq_true, validTok, Bool.not_eq_true',
          Bool.not_eq_eq_eq_not] at hval
        obtain ⟨hcm, hval2⟩ := hval
        rw [List.map_cons,
          frobLoop_cons_ok mods _ _ _ _
            (frobStep_comment mods out stk (renderPath stk) pv k s hcm),
          ih rest0 stk (out ++ ("<!--".data ++ s ++ "-->".data)) k false
            (Nat.le_of_succ_le_succ hlen) hbal hval2 hplug
            (fun h => absurd h Bool.false_ne_true)]
        simp [mapTokens, normSerialize, escapeText, List.append_assoc]
      | start n attrs =>
        simp only [List.all_cons, Bool.and_eq_true, validTok, decide_eq_true_eq] at hval
        obtain ⟨⟨hn, hs⟩, hval0⟩ := hval
        simp only [noPluginFrom, Bool.and_eq_true, decide_eq_true_eq] at hplug
        obtain ⟨hne, hplug0⟩ := hplug
        rw [List.map_cons,
          frobLoop_cons_ok mods _ _ _ _
            (frobStep_start mods out stk (renderPath stk) pv k n attrs hne hn)]
        cases rest0 with
        | nil => simp [balAux] at hbal
        | cons t2 rest =>
          cases t2 with
          | endTag m =>
            have hbal1 : balAux (n :: stk) (Token.endTag m :: rest) = true := hbal
            simp only [balAux, Bool.and_eq_true, decide_eq_true_eq] at hbal1
            obtain ⟨hmn, hbal2⟩ := hbal1
            subst hmn
            simp only [List.all_cons, Bool.and_eq_true] at hval0
            obtain ⟨_, hval2⟩ := hval0
            have hplug2 : noPluginFrom (renderPath stk) rest = true := by
              have : noPluginFrom (renderPath stk ++ '/' :: n) (Token.endTag n :: rest)
                  = noPluginFrom ((truncAtLastSlash (renderPath stk ++ '/' :: n)).getD []) rest := rfl
              rw [this, truncAtLastSlash_append _ _ hs] at hplug0
              exact hplug0
            rw [List.map_cons,
              frobLoop_cons_ok mods _ _ _ _
                (frobStep_end_prev mods out stk (renderPath stk) k n
                  (applyMods mods (renderPath stk ++ '/' :: n) attrs) hn hs),
              ih rest stk
                (out ++ renderSelfClose n (applyMods mods (renderPath stk ++ '/' :: n) attrs)) k false
                (Nat.le_of_succ_le (Nat.le_of_succ_le_succ hlen)) hbal2 hval2 hplug2
                (fun h => absurd h Bool.false_ne_true)]
            have hmap : mapTokens mods (renderPath stk) (Token.start n attrs :: Token.endTag n :: rest)
                = Token.start n (applyMods mods (renderPath stk ++ '/' :: n) attrs)
                  :: Token.endTag n :: mapTokens mods (renderPath stk) rest := by
              simp [mapTokens, truncAtLastSlash_append _ _ hs]
            rw [hmap]
            simp [normSerialize, List.append_assoc]
          | start n2 a2 =>
            have hstep := ih (Token.start n2 a2 :: rest) (n :: stk)
              (out ++ renderStartTag n (applyMods mods (renderPath stk ++ '/' :: n) attrs)) k true
              (Nat.le_of_succ_le_succ hlen) hbal hval0 hplug0
              (fun _ n3 h => Token.noConfusion (Option.some.inj h))
            rw [show renderPath (n :: stk) = renderPath stk ++ '/' :: n from rfl] at hstep
            rw [hstep]
            simp [mapTokens, normSerialize, List.append_assoc]
          | charData s2 =>
            have hstep := ih (Token.charData s2 :: rest) (n :: stk)
              (out ++ renderStartTag n (applyMods mods (renderPath stk ++ '/' :: n) attrs)) k true
              (Nat.le_of_succ_le_succ hlen) hbal hval0 hplug0
              (fun _ n3 h => Token.noConfusion (Option.some.inj h))
            rw [show renderPath (n :: stk) = renderPath stk ++ '/' :: n from rfl] at hstep
            rw [hstep]
            simp [mapTokens, normSerialize, List.append_assoc]
          | comment s2 =>
            have hstep := ih (Token.comment s2 :: rest) (n :: stk)
              (out ++ renderStartTag n (applyMods mods (renderPath stk ++ '/' :: n) attrs)) k true
              (Nat.le_of_succ_le_succ hlen) hbal hval0 hplug0
              (fun _ n3 h => Token.noConfusion (Option.some.inj h))
            rw [show renderPath (n :: stk) = renderPath stk ++ '/' :: n from rfl] at hstep
            rw [hstep]
            simp [mapTokens, normSerialize, List.append_assoc]

/-- C9 counterexample: on a lexing failure the run ends in `log.Fatalf`
(process termination with the cause in the message), not in an error
result returned by `frobnicate`. -/
theorem c9_counterexample :
    frobnicate [.lexErr "boom".data] []
        = .fatal "Unexpected error while parsing XML file: boom".data
      ∧ ∀ e, frobnicate [.lexErr "boom".data] [] ≠ .err e := by
  refine ⟨rfl, fun e h => ?_⟩
  rw [show frobnicate [.lexErr "boom".data] []
        = .fatal "Unexpected error while parsing XML file: boom".data from rfl] at h
  exact Outcome.noConfusion h


theorem applyMods_nil_mods (p : List Char) (attrs : List Attr) :
    applyMods [] p attrs = attrs := rfl

theorem mapTokens_nil_mods (p : List Char) (ts : List Token) :
    mapTokens [] p ts = ts := by
  induction ts generalizing p with
  | nil => rfl
  | cons t rest ih => cases t <;> simp [mapTokens, ih, applyMods_nil_mods]

/-- The main characterization of the rewrite engine: on a well-formed
document (balanced, valid tokens, no element at the suppressed path)
`frobnicate` succeeds and its output is exactly the canonical
serialization of the token stream with the modification loop applied to
every start tag. -/
theorem frobTokens_norm (ts : List Token) (mods : List Modification)
    (h : wfTokens ts = true) :
    frobTokens ts mods = .ok (normSerialize (mapTokens mods [] ts)) := by
  simp only [wfTokens, Bool.and_eq_true] at h
  obtain ⟨⟨hbal, hval⟩, hplug⟩ := h
  have hmain := frobLoop_norm_aux mods ts.length ts [] [] 0 false (Nat.le_refl _)
    hbal hval hplug (fun hf => absurd hf Bool.false_ne_true)
  simpa [frobTokens, frobnicate, initState] using hmain

/-- C2 (amended): for every well-formed input containing no element at
the hardcoded suppressed path, `rewrite` with an empty modification list
emits the canonical serialization of the input's token stream: every
token byte-identically re-rendered, except that every empty-bodied
element (start tag immediately followed by its end tag) is emitted
self-closing. -/
theorem c2_amended (ts : List Token) (h : wfTokens ts = true) :
    frobTokens ts [] = .ok (normSerialize ts) := by
  have hmain := frobTokens_norm ts [] h
  rwa [mapTokens_nil_mods] at hmain

/-- C2 witness: the spec's concrete empty-element scenario
`<a><b></b></a>` with no modifications gives `<a><b/></a>`. -/
theorem c2_amended_witness :
    wfTokens [Token.start "a".data [], Token.start "b".data [],
        Token.endTag "b".data, Token.endTag "a".data] = true
      ∧ frobTokens [Token.start "a".data [], Token.start "b".data [],
          Token.endTag "b".data, Token.endTag "a".data] []
          = .ok "<a><b/></a>".data := by
  refine ⟨by decide, ?_⟩
  rw [c2_amended _ (by decide)]
  rfl

theorem balAux_mapTokens (mods : List Modification) (p : List Char)
    (stk : List (List Char)) (ts : List Token) :
    balAux stk (mapTokens mods p ts) = balAux stk ts := by
  induction ts generalizing p stk with
  | nil => rfl
  | cons t rest ih =>
    cases t with
    | start n attrs => simp [mapTokens, balAux, ih]
    | endTag n => cases stk <;> simp [mapTokens, balAux, ih]
    | charData s2 => simp [mapTokens, balAux, ih]
    | comment s2 => simp [mapTokens, balAux, ih]

theorem all_validTok_mapTokens (mods : List Modification) (p : List Char) (ts : List Token) :
    (mapTokens mods p ts).all validTok = ts.all validTok := by
  induction ts generalizing p with
  | nil => rfl
  | cons t rest ih => cases t <;> simp [mapTokens, validTok, ih]

theorem noPluginFrom_mapTokens (mods : List Modification) (p : List Char) (ts : List Token) :
    noPluginFrom p (mapTokens mods p ts) = noPluginFrom p ts := by
  induction ts generalizing p with
  | nil => rfl
  | cons t rest ih => cases t <;> simp [mapTokens, noPluginFrom, ih]

theorem wfTokens_mapTokens (mods : List Modification) (ts : List Token) :
    wfTokens (mapTokens mods [] ts) = wfTokens ts := by
  rw [wfTokens, wfTokens, balAux_mapTokens, all_validTok_mapTokens, noPluginFrom_mapTokens]

theorem finalValue_idem (mods : List Modification) (p nm v : List Char) :
    finalValue mods p nm (finalValue mods p nm v) = finalValue mods p nm v := by
  induction mods generalizing v with
  | nil => rfl
  | cons pat mods ih =>
    by_cases hC : p = pat.path ∧ nm = pat.attr
    · simp only [finalValue_cons, if_pos hC]
    · simp only [finalValue_cons, if_neg hC]
      exact ih v

theorem applyMods_idem (mods : List Modification) (p : List Char) (attrs : List Attr) :
    applyMods mods p (applyMods mods p attrs) = applyMods mods p attrs := by
  rw [applyMods_eq_map, applyMods_eq_map, List.map_map]
  apply List.map_congr_left
  intro a _
  simp [Function.comp, finalValue_idem]

theorem mapTokens_idem (mods : List Modification) (p : List Char) (ts : List Token) :
    mapTokens mods p (mapTokens mods p ts) = mapTokens mods p ts := by
  induction ts generalizing p with
  | nil => rfl
  | cons t rest ih =>
    cases t with
    | start n attrs => simp [mapTokens, applyMods_idem, ih]
    | endTag n => simp [mapTokens, ih]
    | charData s2 => simp [mapTokens, ih]
    | comment s2 => simp [mapTokens, ih]

/-- C8 (amended): on well-formed inputs with no element at the
suppressed path, the rewrite is idempotent at the token level: running
the engine on the token stream of its own output (which is the input
stream with the modification loop applied to every start tag) produces
the same bytes as the single run.  When suppressed-path elements are
present, idempotence fails (see the counterexample). -/
theorem c8_amended (ts : List Token) (mods : List Modification) (h : wfTokens ts = true) :
    frobTokens (mapTokens mods [] ts) mods = frobTokens ts mods := by
  have h2 : wfTokens (mapTokens mods [] ts) = true := by
    rw [wfTokens_mapTokens]
    exact h
  rw [frobTokens_norm _ _ h2, frobTokens_norm _ _ h, mapTokens_idem]

/-- C8 witness: token-level idempotence on the spec's server/connector
scenario with the `/server/connector@port=8181` modification. -/
theorem c8_amended_witness :
    wfTokens serverDoc = true
      ∧ frobTokens (mapTokens [serverMod] [] serverDoc) [serverMod]
          = frobTokens serverDoc [serverMod] :=
  ⟨by decide, c8_amended serverDoc [serverMod] (by decide)⟩


/-- C9 (amended): a lexing failure reached by the loop terminates the
whole process through `log.Fatalf`, printing the underlying cause — it
is not returned as an error result of `frobnicate`; end-of-stream
terminates the loop normally, triggers the final flush, and the buffered
output is returned without error. -/
theorem c9_amended :
    (∀ (mods : List Modification) (st st2 : FrobState) (pre : List Token)
        (msg : List Char) (rest : List LexEvent),
        frobRun mods st pre = .ok st2
        → frobLoop mods st (pre.map .tok ++ .lexErr msg :: rest)
            = .fatal ("Unexpected error while parsing XML file: ".data ++ msg))
      ∧ (∀ (mods : List Modification) (st st2 : FrobState) (ts : List Token),
          frobRun mods st ts = .ok st2
          → frobLoop mods st (ts.map .tok) = .ok st2.out) := by
  constructor
  · intro mods st st2 pre msg rest h
    induction pre generalizing st with
    | nil => rfl
    | cons t pre ih =>
      cases hstep : frobStep mods st t with
      | error o =>
        simp only [frobRun, hstep] at h
        exact Except.noConfusion h
      | ok st1 =>
        simp only [frobRun, hstep] at h
        rw [List.map_cons, List.cons_append, frobLoop_cons_ok mods st st1 t _ hstep]
        exact ih st1 h
  · intro mods st st2 ts h
    induction ts generalizing st with
    | nil =>
      simp only [frobRun] at h
      injection h with h
      rw [h]
      rfl
    | cons t ts ih =>
      cases hstep : frobStep mods st t with
      | error o =>
        simp only [frobRun, hstep] at h
        exact Except.noConfusion h
      | ok st1 =>
        simp only [frobRun, hstep] at h
        rw [List.map_cons, frobLoop_cons_ok mods st st1 t _ hstep]
        exact ih st1 h

/-- C9 witness: the amended statement applied after one successfully
processed start tag, with a lexing failure following. -/
theorem c9_amended_witness :
    frobRun [] initState [Token.start "a".data []]
        = .ok ⟨"<a>".data, ["a".data], "/a".data, true, false, 0⟩
      ∧ frobLoop [] initState
          [.tok (Token.start "a".data []), .lexErr "boom2".data]
          = .fatal ("Unexpected error while parsing XML file: ".data ++ "boom2".data)
      ∧ frobLoop [] initState [.tok (Token.start "a".data [])] = .ok "<a>".data := by
  refine ⟨rfl, ?_, ?_⟩
  · exact c9_amended.1 [] initState ⟨"<a>".data, ["a".data], "/a".data, true, false, 0⟩
      [Token.start "a".data []] "boom2".data [] rfl
  · exact c9_amended.2 [] initState ⟨"<a>".data, ["a".data], "/a".data, true, false, 0⟩
      [Token.start "a".data []] rfl


/-- Effect of one loop iteration on the path buffer and the plugin
counter: a start tag extends the path and bumps the counter exactly when
the new path is the suppressed path; an end tag truncates the path and
keeps the counter; other tokens change neither.  No branch ever
decreases or resets the counter. -/
theorem frobStep_pluginNo (mods : List Modification) (st st1 : FrobState) (t : Token)
    (h : frobStep mods st t = .ok st1) :
    (∀ n attrs, t = Token.start n attrs
      → st1.path = st.path ++ '/' :: n
        ∧ st1.pluginNo
            = (if st.path ++ '/' :: n = pluginPath then st.pluginNo + 1 else st.pluginNo))
    ∧ (∀ n, t = Token.endTag n
      → truncAtLastSlash st.path = some st1.path ∧ st1.pluginNo = st.pluginNo)
    ∧ (∀ s2, t = Token.charData s2 → st1.path = st.path ∧ st1.pluginNo = st.pluginNo)
    ∧ (∀ s2, t = Token.comment s2 → st1.path = st.path ∧ st1.pluginNo = st.pluginNo) := by
  refine ⟨?_, ?_, ?_, ?_⟩
  · rintro n attrs rfl
    simp only [frobStep] at h
    repeat' split at h
    all_goals first
      | exact Except.noConfusion h
      | (injection h with h; subst h; simp_all)
  · rintro n rfl
    simp only [frobStep] at h
    repeat' split at h
    all_goals first
      | exact Except.noConfusion h
      | (injection h with h; subst h; simp_all)
  · rintro s2 rfl
    simp only [frobStep] at h
    repeat' split at h
    all_goals first
      | exact Except.noConfusion h
      | (injection h with h; subst h; simp_all)
  · rintro s2 rfl
    simp only [frobStep] at h
    repeat' split at h
    all_goals first
      | exact Except.noConfusion h
      | (injection h with h; subst h; simp_all)


/-- C7 (amended): the suppression counter is GLOBAL: after any
successfully processed token list, `pluginNo` has grown by exactly the
number of start tags whose traversal path is the suppressed path, so it
never decreases and is never reset when an enclosing scope closes; only
the first two suppressed-path elements of the whole document are
dropped.  Concretely, on the two-scope document `c7doc` the second
scope's (third overall) element passes through, self-closing. -/
theorem c7_amended :
    (∀ (mods : List Modification) (ts : List Token) (st st2 : FrobState),
        frobRun mods st ts = .ok st2
        → st2.pluginNo = st.pluginNo + (startPathsFrom st.path ts).count pluginPath
          ∧ st.pluginNo ≤ st2.pluginNo)
      ∧ frobTokens c7doc []
          = .ok "<project><profiles><profile><build><plugins/></build></profile><profile><build><plugins><plugin/></plugins></build></profile></profiles></project>".data := by
  constructor
  · intro mods ts
    induction ts with
    | nil =>
      intro st st2 h
      simp only [frobRun] at h
      injection h with h
      subst h
      simp [startPathsFrom]
    | cons t rest ih =>
      intro st st2 h
      cases hstep : frobStep mods st t with
      | error o =>
        simp only [frobRun, hstep] at h
        exact Except.noConfusion h
      | ok st1 =>
        simp only [frobRun, hstep] at h
        obtain ⟨hrec, _⟩ := ih st1 st2 h
        have heff := frobStep_pluginNo mods st st1 t hstep
        cases t with
        | start n attrs =>
          obtain ⟨hpath, hk⟩ := heff.1 n attrs rfl
          rw [hrec, hpath, hk]
          simp only [startPathsFrom, List.count_cons, beq_iff_eq]
          by_cases hp : st.path ++ '/' :: n = pluginPath
          · simp only [if_pos hp]
            omega
          · simp only [if_neg hp]
            omega
        | endTag n =>
          obtain ⟨hpath, hk⟩ := heff.2.1 n rfl
          have hsp : startPathsFrom st.path (Token.endTag n :: rest)
              = startPathsFrom st1.path rest := by
            show startPathsFrom ((truncAtLastSlash st.path).getD []) rest
              = startPathsFrom st1.path rest
            rw [hpath]
            rfl
          rw [hrec, hk, hsp]
          exact ⟨rfl, Nat.le_add_right _ _⟩
        | charData s2 =>
          obtain ⟨hpath, hk⟩ := heff.2.2.1 s2 rfl
          have hsp : startPathsFrom st.path (Token.charData s2 :: rest)
              = startPathsFrom st1.path rest := by
            rw [hpath]
            rfl
          rw [hrec, hk, hsp]
          exact ⟨rfl, Nat.le_add_right _ _⟩
        | comment s2 =>
          obtain ⟨hpath, hk⟩ := heff.2.2.2 s2 rfl
          have hsp : startPathsFrom st.path (Token.comment s2 :: rest)
              = startPathsFrom st1.path rest := by
            rw [hpath]
            rfl
          rw [hrec, hk, hsp]
          exact ⟨rfl, Nat.le_add_right _ _⟩
  · rfl

/-- C7 witness: the counter characterization applied to a concrete run
holding one suppressed-path element (counter 0 → 1). -/
theorem c7_amended_witness :
    frobRun [] initState c2doc = .ok ⟨"<project><profiles><profile><build><plugins/></build></profile></profiles></project>".data, [], [], false, false, 1⟩
      ∧ (1 : Nat) = 0 + (startPathsFrom [] c2doc).count pluginPath := by
  constructor
  · rfl
  · have h := (c7_amended.1 [] c2doc initState
      ⟨"<project><profiles><profile><build><plugins/></build></profile></profiles></project>".data, [], [], false, false, 1⟩ rfl).1
    exact h


theorem getLast?_cons_of_ne_nil {α : Type} (t : α) (l : List α) (h : l ≠ []) :
    (t :: l).getLast? = l.getLast? := by
  cases l with
  | nil => exact absurd rfl h
  | cons a as => exact List.getLast?_cons_cons ..

theorem normSerialize_end_cons (n : List Char) (L : List Token) :
    normSerialize (Token.endTag n :: L) = renderEndTag n ++ normSerialize L := rfl

theorem normSerialize_char_cons (s : List Char) (L : List Token) :
    normSerialize (Token.charData s :: L) = escapeText false s ++ normSerialize L := rfl

theorem normSerialize_comment_cons (s : List Char) (L : List Token) :
    normSerialize (Token.comment s :: L)
      = "<!--".data ++ (s ++ ("-->".data ++ normSerialize L)) := rfl

theorem normSerialize_start_end_cons (n : List Char) (attrs : List Attr) (m : List Char)
    (rest : List Token) :
    normSerialize (Token.start n attrs :: Token.endTag m :: rest)
      = if n = m then renderSelfClose n attrs ++ normSerialize rest
        else renderStartTag n attrs ++ (renderEndTag m ++ normSerialize rest) := rfl

theorem normSerialize_start_cons_notEnd (n : List Char) (attrs : List Attr) (L : List Token)
    (hL : ∀ m, L.head? ≠ some (Token.endTag m)) :
    normSerialize (Token.start n attrs :: L) = renderStartTag n attrs ++ normSerialize L := by
  cases L with
  | nil => rfl
  | cons t L2 =>
    cases t with
    | endTag m => exact absurd rfl (hL m)
    | start n2 a2 => rfl
    | charData s2 => rfl
    | comment s2 => rfl

/-- Splitting the canonical serialization at a point where the
collapse lookahead cannot cross: the continuation does not begin with an
end tag, or the first part does not end with a start tag. -/
theorem normSerialize_append_aux (N : Nat) :
    ∀ (A X : List Token), A.length ≤ N
      → ((∀ n, X.head? ≠ some (Token.endTag n))
          ∨ (∀ n a, A.getLast? ≠ some (Token.start n a)))
      → normSerialize (A ++ X) = normSerialize A ++ normSerialize X := by
  induction N with
  | zero =>
    intro A X hlen _
    have hA : A = [] := List.eq_nil_of_length_eq_zero (Nat.le_zero.mp hlen)
    subst hA
    simp [normSerialize]
  | succ N ih =>
    intro A X hlen hC
    cases A with
    | nil => simp [normSerialize]
    | cons t1 A1 =>
      cases A1 with
      | nil =>
        cases t1 with
        | start n attrs =>
          have hX : ∀ m, X.head? ≠ some (Token.endTag m) := by
            rcases hC with h | h
            · exact h
            · exact absurd rfl (h n attrs)
          rw [List.cons_append, List.nil_append,
            normSerialize_start_cons_notEnd n attrs X hX]
          simp [normSerialize]
        | endTag n =>
          rw [List.cons_append, List.nil_append, normSerialize_end_cons]
          simp [normSerialize]
        | charData s2 =>
          rw [List.cons_append, List.nil_append, normSerialize_char_cons]
          simp [normSerialize]
        | comment s2 =>
          rw [List.cons_append, List.nil_append, normSerialize_comment_cons,
            normSerialize_comment_cons]
          simp [normSerialize, List.append_assoc]
      | cons t2 A2 =>
        have hlast : (t1 :: t2 :: A2).getLast? = (t2 :: A2).getLast? :=
          List.getLast?_cons_cons ..
        have hC2 : (∀ n, X.head? ≠ some (Token.endTag n))
            ∨ (∀ n a, (t2 :: A2).getLast? ≠ some (Token.start n a)) := by
          rcases hC with h | h
          · exact Or.inl h
          · exact Or.inr (fun n a => hlast ▸ h n a)
        cases t1 with
        | endTag n =>
          have hrec := ih (t2 :: A2) X (Nat.le_of_succ_le_succ hlen) hC2
          rw [List.cons_append, normSerialize_end_cons, normSerialize_end_cons, hrec,
            List.append_assoc]
        | charData s2 =>
          have hrec := ih (t2 :: A2) X (Nat.le_of_succ_le_succ hlen) hC2
          rw [List.cons_append, normSerialize_char_cons, normSerialize_char_cons, hrec,
            List.append_assoc]
        | comment s2 =>
          have hrec := ih (t2 :: A2) X (Nat.le_of_succ_le_succ hlen) hC2
          rw [List.cons_append, normSerialize_comment_cons, normSerialize_comment_cons, hrec]
          simp [List.append_assoc]
        | start n attrs =>
          cases t2 with
          | endTag m =>
            have hC3 : (∀ n2, X.head? ≠ some (Token.endTag n2))
                ∨ (∀ n2 a, A2.getLast? ≠ some (Token.start n2 a)) := by
              rcases hC with h | h
              · exact Or.inl h
              · cases A2 with
                | nil => exact Or.inr (fun n2 a hcon => Option.noConfusion hcon)
                | cons a3 as3 =>
                  refine Or.inr (fun n2 a2 => ?_)
                  have h2 : (Token.endTag m :: a3 :: as3).getLast? = (a3 :: as3).getLast? :=
                    List.getLast?_cons_cons ..
                  intro hcon
                  exact h n2 a2 ((hlast.trans h2).symm ▸ hcon)
            have hrec := ih A2 X (Nat.le_of_succ_le (Nat.le_of_succ_le_succ hlen)) hC3
            rw [List.cons_append, List.cons_append, normSerialize_start_end_cons,
              normSerialize_start_end_cons, hrec]
            by_cases hnm : n = m
            · simp [hnm, List.append_assoc]
            · simp [hnm, List.append_assoc]
          | start n2 a2 =>
            have hrec := ih (Token.start n2 a2 :: A2) X (Nat.le_of_succ_le_succ hlen) hC2
            rw [List.cons_append,
              normSerialize_start_cons_notEnd n attrs ((Token.start n2 a2 :: A2) ++ X)
                (fun m hcon => Token.noConfusion (Option.some.inj hcon)),
              normSerialize_start_cons_notEnd n attrs (Token.start n2 a2 :: A2)
                (fun m hcon => Token.noConfusion (Option.some.inj hcon)),
              hrec, List.append_assoc]
          | charData s2 =>
            have hrec := ih (Token.charData s2 :: A2) X (Nat.le_of_succ_le_succ hlen) hC2
            rw [List.cons_append,
              normSerialize_start_cons_notEnd n attrs ((Token.charData s2 :: A2) ++ X)
                (fun m hcon => Token.noConfusion (Option.some.inj hcon)),
              normSerialize_start_cons_notEnd n attrs (Token.charData s2 :: A2)
                (fun m hcon => Token.noConfusion (Option.some.inj hcon)),
              hrec, List.append_assoc]
          | comment s2 =>
            have hrec := ih (Token.comment s2 :: A2) X (Nat.le_of_succ_le_succ hlen) hC2
            rw [List.cons_append,
              normSerialize_start_cons_notEnd n attrs ((Token.comment s2 :: A2) ++ X)
                (fun m hcon => Token.noConfusion (Option.some.inj hcon)),
              normSerialize_start_cons_notEnd n attrs (Token.comment s2 :: A2)
                (fun m hcon => Token.noConfusion (Option.some.inj hcon)),
              hrec, List.append_assoc]

theorem normSerialize_append (A X : List Token)
    (hC : (∀ n, X.head? ≠ some (Token.endTag n))
        ∨ (∀ n a, A.getLast? ≠ some (Token.start n a))) :
    normSerialize (A ++ X) = normSerialize A ++ normSerialize X :=
  normSerialize_append_aux A.length A X (Nat.le_refl _) hC

theorem mapTokens_append (mods : List Modification) (p : List Char) (A B : List Token) :
    mapTokens mods p (A ++ B) = mapTokens mods p A ++ mapTokens mods (pathAfter p A) B := by
  induction A generalizing p with
  | nil => simp [mapTokens, pathAfter]
  | cons t rest ih => cases t <;> simp [mapTokens, pathAfter, ih]


theorem mapTokens_ne_nil (mods : List Modification) (p : List Char) (M : List Token)
    (h : M ≠ []) : mapTokens mods p M ≠ [] := by
  cases M with
  | nil => exact absurd rfl h
  | cons t rest => cases t <;> simp [mapTokens]

theorem mapTokens_head_not_end (mods : List Modification) (p : List Char) (M : List Token)
    (h : ∀ m, M.head? ≠ some (Token.endTag m)) :
    ∀ m, (mapTokens mods p M).head? ≠ some (Token.endTag m) := by
  cases M with
  | nil => intro m hcon; exact Option.noConfusion hcon
  | cons t rest =>
    cases t with
    | endTag mm => exact absurd rfl (h mm)
    | start n a => intro m hcon; exact Token.noConfusion (Option.some.inj hcon)
    | charData s2 => intro m hcon; exact Token.noConfusion (Option.some.inj hcon)
    | comment s2 => intro m hcon; exact Token.noConfusion (Option.some.inj hcon)

theorem mapTokens_last_not_start (mods : List Modification) (M : List Token)
    (h : ∀ m a, M.getLast? ≠ some (Token.start m a)) :
    ∀ p m a, (mapTokens mods p M).getLast? ≠ some (Token.start m a) := by
  induction M with
  | nil => intro p m a hcon; exact Option.noConfusion hcon
  | cons t rest ih =>
    cases rest with
    | nil =>
      cases t with
      | start n a2 => exact absurd rfl (h n a2)
      | endTag n => intro p m a hcon; exact Token.noConfusion (Option.some.inj hcon)
      | charData s2 => intro p m a hcon; exact Token.noConfusion (Option.some.inj hcon)
      | comment s2 => intro p m a hcon; exact Token.noConfusion (Option.some.inj hcon)
    | cons t2 rest2 =>
      have h2 : ∀ m a, (t2 :: rest2).getLast? ≠ some (Token.start m a) := by
        intro m a
        have hlast : (t :: t2 :: rest2).getLast? = (t2 :: rest2).getLast? :=
          List.getLast?_cons_cons ..
        exact hlast ▸ h m a
      have hnn : (t2 :: rest2) ≠ ([] : List Token) := by simp
      intro p m a hcon
      cases t with
      | start nn aa =>
        rw [show mapTokens mods p (Token.start nn aa :: t2 :: rest2)
            = Token.start nn (applyMods mods (p ++ '/' :: nn) aa)
              :: mapTokens mods (p ++ '/' :: nn) (t2 :: rest2) from rfl,
          getLast?_cons_of_ne_nil _ _ (mapTokens_ne_nil mods _ _ hnn)] at hcon
        exact ih h2 (p ++ '/' :: nn) m a hcon
      | endTag nn =>
        rw [show mapTokens mods p (Token.endTag nn :: t2 :: rest2)
            = Token.endTag nn
              :: mapTokens mods ((truncAtLastSlash p).getD []) (t2 :: rest2) from rfl,
          getLast?_cons_of_ne_nil _ _ (mapTokens_ne_nil mods _ _ hnn)] at hcon
        exact ih h2 ((truncAtLastSlash p).getD []) m a hcon
      | charData ss =>
        rw [show mapTokens mods p (Token.charData ss :: t2 :: rest2)
            = Token.charData ss :: mapTokens mods p (t2 :: rest2) from rfl,
          getLast?_cons_of_ne_nil _ _ (mapTokens_ne_nil mods _ _ hnn)] at hcon
        exact ih h2 p m a hcon
      | comment ss =>
        rw [show mapTokens mods p (Token.comment ss :: t2 :: rest2)
            = Token.comment ss :: mapTokens mods p (t2 :: rest2) from rfl,
          getLast?_cons_of_ne_nil _ _ (mapTokens_ne_nil mods _ _ hnn)] at hcon
        exact ih h2 p m a hcon


/-- C3 (amended): outside the hardcoded suppressed path, a start tag
immediately followed by its matching end tag is emitted as a single
self-closing tag `<name .../>` whatever shape the input used (both
`<name/>` and `<name></name>` lex to the same start/end token pair);
and when tokens stand between the start tag and its end tag, the end
tag is emitted separately after them.  Elements inside the suppressed
subtree produce no output at all (see the counterexample). -/
theorem c3_amended :
    (∀ (mods : List Modification) (A B : List Token) (n : List Char) (attrs : List Attr),
        wfTokens (A ++ Token.start n attrs :: Token.endTag n :: B) = true
        → frobTokens (A ++ Token.start n attrs :: Token.endTag n :: B) mods
            = .ok (normSerialize (mapTokens mods [] A)
                ++ (renderSelfClose n (applyMods mods (pathAfter [] A ++ '/' :: n) attrs)
                  ++ normSerialize (mapTokens mods (pathAfter [] A) B))))
      ∧ (∀ (mods : List Modification) (A M B : List Token) (n : List Char) (attrs : List Attr),
          wfTokens (A ++ Token.start n attrs :: (M ++ Token.endTag n :: B)) = true
          → M ≠ []
          → (∀ m, M.head? ≠ some (Token.endTag m))
          → (∀ m a, M.getLast? ≠ some (Token.start m a))
          → pathAfter (pathAfter [] A ++ '/' :: n) M = pathAfter [] A ++ '/' :: n
          → frobTokens (A ++ Token.start n attrs :: (M ++ Token.endTag n :: B)) mods
              = .ok (normSerialize (mapTokens mods [] A)
                  ++ (renderStartTag n (applyMods mods (pathAfter [] A ++ '/' :: n) attrs)
                    ++ (normSerialize (mapTokens mods (pathAfter [] A ++ '/' :: n) M)
                      ++ (renderEndTag n
                        ++ normSerialize (mapTokens mods (pathAfter [] A) B)))))) := by
  constructor
  · intro mods A B n attrs hwf
    have hvT : validTok (Token.start n attrs) = true := by
      have hv := hwf
      simp only [wfTokens, Bool.and_eq_true] at hv
      have hall := hv.1.2
      rw [List.all_append, Bool.and_eq_true, List.all_cons, Bool.and_eq_true] at hall
      exact hall.2.1
    have hs : '/' ∉ n := by
      simp only [validTok, Bool.and_eq_true, decide_eq_true_eq] at hvT
      exact hvT.2
    rw [frobTokens_norm _ _ hwf, mapTokens_append]
    have hmapPair : mapTokens mods (pathAfter [] A) (Token.start n attrs :: Token.endTag n :: B)
        = Token.start n (applyMods mods (pathAfter [] A ++ '/' :: n) attrs)
          :: Token.endTag n :: mapTokens mods (pathAfter [] A) B := by
      rw [show mapTokens mods (pathAfter [] A) (Token.start n attrs :: Token.endTag n :: B)
          = Token.start n (applyMods mods (pathAfter [] A ++ '/' :: n) attrs)
            :: Token.endTag n
            :: mapTokens mods
                ((truncAtLastSlash (pathAfter [] A ++ '/' :: n)).getD []) B from rfl,
        truncAtLastSlash_append _ _ hs, Option.getD_some]
    have hselfHead : ∀ m,
        (Token.start n (applyMods mods (pathAfter [] A ++ '/' :: n) attrs)
          :: Token.endTag n :: mapTokens mods (pathAfter [] A) B).head?
          ≠ some (Token.endTag m) :=
      fun m hcon => Token.noConfusion (Option.some.inj hcon)
    rw [hmapPair, normSerialize_append _ _ (Or.inl hselfHead),
      normSerialize_start_end_cons, if_pos rfl]
  · intro mods A M B n attrs hwf hM hMhead hMlast hMpath
    have hvT : validTok (Token.start n attrs) = true := by
      have hv := hwf
      simp only [wfTokens, Bool.and_eq_true] at hv
      have hall := hv.1.2
      rw [List.all_append, Bool.and_eq_true, List.all_cons, Bool.and_eq_true] at hall
      exact hall.2.1
    have hs : '/' ∉ n := by
      simp only [validTok, Bool.and_eq_true, decide_eq_true_eq] at hvT
      exact hvT.2
    rw [frobTokens_norm _ _ hwf, mapTokens_append]
    rw [show mapTokens mods (pathAfter [] A) (Token.start n attrs :: (M ++ Token.endTag n :: B))
        = Token.start n (applyMods mods (pathAfter [] A ++ '/' :: n) attrs)
          :: mapTokens mods (pathAfter [] A ++ '/' :: n) (M ++ Token.endTag n :: B) from rfl]
    rw [mapTokens_append mods (pathAfter [] A ++ '/' :: n) M (Token.endTag n :: B), hMpath]
    rw [show mapTokens mods (pathAfter [] A ++ '/' :: n) (Token.endTag n :: B)
        = Token.endTag n
          :: mapTokens mods ((truncAtLastSlash (pathAfter [] A ++ '/' :: n)).getD []) B from rfl,
      truncAtLastSlash_append _ _ hs, Option.getD_some]
    have hstartHead : ∀ m,
        (Token.start n (applyMods mods (pathAfter [] A ++ '/' :: n) attrs)
          :: (mapTokens mods (pathAfter [] A ++ '/' :: n) M
            ++ Token.endTag n :: mapTokens mods (pathAfter [] A) B)).head?
          ≠ some (Token.endTag m) :=
      fun m hcon => Token.noConfusion (Option.some.inj hcon)
    rw [normSerialize_append (mapTokens mods [] A) _ (Or.inl hstartHead)]
    have hmapMne := mapTokens_ne_nil mods (pathAfter [] A ++ '/' :: n) M hM
    have hmapMhead := mapTokens_head_not_end mods (pathAfter [] A ++ '/' :: n) M hMhead
    have hheadApp : ∀ m,
        (mapTokens mods (pathAfter [] A ++ '/' :: n) M
          ++ Token.endTag n :: mapTokens mods (pathAfter [] A) B).head?
          ≠ some (Token.endTag m) := by
      intro m
      cases hmm : mapTokens mods (pathAfter [] A ++ '/' :: n) M with
      | nil => exact absurd hmm hmapMne
      | cons x xs =>
        rw [List.cons_append]
        have hh := hmapMhead m
        rw [hmm] at hh
        exact hh
    rw [normSerialize_start_cons_notEnd _ _ _ hheadApp,
      normSerialize_append _ _
        (Or.inr (fun m a => mapTokens_last_not_start mods M hMlast _ m a)),
      normSerialize_end_cons]

/-- C3 witness: both amended statements applied at concrete inputs:
`<a><b></b></a>` (empty pair inside content) and `<a>x</a>` (content
between start and end). -/
theorem c3_amended_witness :
    wfTokens [Token.start "a".data [], Token.start "b".data [],
        Token.endTag "b".data, Token.endTag "a".data] = true
      ∧ frobTokens [Token.start "a".data [], Token.start "b".data [],
          Token.endTag "b".data, Token.endTag "a".data] []
          = .ok ("<a>".data ++ (renderSelfClose "b".data [] ++ "</a>".data))
      ∧ wfTokens [Token.start "a".data [], Token.charData "x".data, Token.endTag "a".data] = true
      ∧ frobTokens [Token.start "a".data [], Token.charData "x".data, Token.endTag "a".data] []
          = .ok ("<a>".data ++ ("x".data ++ "</a>".data)) := by
  refine ⟨by decide, ?_, by decide, ?_⟩
  · have h := c3_amended.1 [] [Token.start "a".data []] [Token.endTag "a".data]
      "b".data [] (by decide)
    exact h.trans (by decide)
  · have h := c3_amended.2 [] [] [Token.charData "x".data] [] "a".data []
      (by decide) (by decide)
      (fun m hcon => Token.noConfusion (Option.some.inj hcon))
      (fun m a hcon => Token.noConfusion (Option.some.inj hcon))
      (by decide)
    exact h.trans (by decide)


theorem finalValue_append (ms1 ms2 : List Modification) (p nm v : List Char) :
    finalValue (ms1 ++ ms2) p nm v = finalValue ms2 p nm (finalValue ms1 p nm v) := by
  simp [finalValue, List.foldl_append]

theorem finalValue_erase_middle (ms1 ms2 : List Modification) (m : Modification)
    (p nm v : List Char) (h : ¬(p = m.path ∧ nm = m.attr)) :
    finalValue (ms1 ++ m :: ms2) p nm v = finalValue (ms1 ++ ms2) p nm v := by
  rw [finalValue_append, finalValue_append, finalValue_cons, if_neg h]

theorem finalValue_with_middle (ms1 ms2 : List Modification) (m : Modification)
    (p nm v : List Char) (hp : p = m.path) (hn : nm = m.attr)
    (h2 : ∀ pat ∈ ms2, ¬(p = pat.path ∧ nm = pat.attr)) :
    finalValue (ms1 ++ m :: ms2) p nm v = m.value := by
  rw [finalValue_append, finalValue_cons, if_pos ⟨hp, hn⟩, finalValue_nomatch _ _ _ _ h2]

theorem applyMods_erase_middle_path (ms1 ms2 : List Modification) (m : Modification)
    (p : List Char) (attrs : List Attr) (hp : p ≠ m.path) :
    applyMods (ms1 ++ m :: ms2) p attrs = applyMods (ms1 ++ ms2) p attrs := by
  rw [applyMods_eq_map, applyMods_eq_map]
  apply List.map_congr_left
  intro a _
  rw [finalValue_erase_middle _ _ _ _ _ _ (fun hc => hp hc.1)]

theorem mapTokens_erase_middle (ms1 ms2 : List Modification) (m : Modification) :
    ∀ (A : List Token) (p : List Char), m.path ∉ startPathsFrom p A
      → mapTokens (ms1 ++ m :: ms2) p A = mapTokens (ms1 ++ ms2) p A := by
  intro A
  induction A with
  | nil => intro p _; rfl
  | cons t rest ih =>
    intro p hA
    cases t with
    | start n attrs =>
      simp only [startPathsFrom, List.mem_cons, not_or] at hA
      obtain ⟨h1, h2⟩ := hA
      rw [show mapTokens (ms1 ++ m :: ms2) p (Token.start n attrs :: rest)
          = Token.start n (applyMods (ms1 ++ m :: ms2) (p ++ '/' :: n) attrs)
            :: mapTokens (ms1 ++ m :: ms2) (p ++ '/' :: n) rest from rfl,
        show mapTokens (ms1 ++ ms2) p (Token.start n attrs :: rest)
          = Token.start n (applyMods (ms1 ++ ms2) (p ++ '/' :: n) attrs)
            :: mapTokens (ms1 ++ ms2) (p ++ '/' :: n) rest from rfl,
        applyMods_erase_middle_path _ _ _ _ _ (fun hEq => h1 hEq.symm), ih _ h2]
    | endTag n =>
      rw [show mapTokens (ms1 ++ m :: ms2) p (Token.endTag n :: rest)
          = Token.endTag n
            :: mapTokens (ms1 ++ m :: ms2) ((truncAtLastSlash p).getD []) rest from rfl,
        show mapTokens (ms1 ++ ms2) p (Token.endTag n :: rest)
          = Token.endTag n
            :: mapTokens (ms1 ++ ms2) ((truncAtLastSlash p).getD []) rest from rfl,
        ih _ hA]
    | charData s2 =>
      rw [show mapTokens (ms1 ++ m :: ms2) p (Token.charData s2 :: rest)
          = Token.charData s2 :: mapTokens (ms1 ++ m :: ms2) p rest from rfl,
        show mapTokens (ms1 ++ ms2) p (Token.charData s2 :: rest)
          = Token.charData s2 :: mapTokens (ms1 ++ ms2) p rest from rfl,
        ih _ hA]
    | comment s2 =>
      rw [show mapTokens (ms1 ++ m :: ms2) p (Token.comment s2 :: rest)
          = Token.comment s2 :: mapTokens (ms1 ++ m :: ms2) p rest from rfl,
        show mapTokens (ms1 ++ ms2) p (Token.comment s2 :: rest)
          = Token.comment s2 :: mapTokens (ms1 ++ ms2) p rest from rfl,
        ih _ hA]

theorem renderAttrs_append (xs ys : List Attr) :
    renderAttrs (xs ++ ys) = renderAttrs xs ++ renderAttrs ys := by
  induction xs with
  | nil => rfl
  | cons a xs ih =>
    rw [List.cons_append,
      show renderAttrs (a :: (xs ++ ys)) = renderAttr a ++ renderAttrs (xs ++ ys) from rfl,
      show renderAttrs (a :: xs) = renderAttr a ++ renderAttrs xs from rfl,
      ih, List.append_assoc]


/-- The serialization of a start tag before a given continuation always
renders as name-and-attributes followed by a tail that does not depend
on the attributes (`>`, or `/>` when the continuation collapses it). -/
theorem normSerialize_cons_start_shape (n : List Char) (Y : List Token) :
    ∃ T, ∀ attrs, normSerialize (Token.start n attrs :: Y)
        = ('<' :: (n ++ renderAttrs attrs)) ++ T := by
  cases Y with
  | nil =>
    refine ⟨['>'], fun attrs => ?_⟩
    show renderStartTag n attrs ++ normSerialize [] = _
    simp [renderStartTag, normSerialize]
  | cons y Y2 =>
    cases y with
    | endTag mm =>
      by_cases hnm : n = mm
      · refine ⟨'/' :: '>' :: normSerialize Y2, fun attrs => ?_⟩
        rw [normSerialize_start_end_cons, if_pos hnm, renderSelfClose]
        simp [List.append_assoc]
      · refine ⟨'>' :: (renderEndTag mm ++ normSerialize Y2), fun attrs => ?_⟩
        rw [normSerialize_start_end_cons, if_neg hnm, renderStartTag]
        simp [List.append_assoc]
    | start n2 aa =>
      refine ⟨'>' :: normSerialize (Token.start n2 aa :: Y2), fun attrs => ?_⟩
      rw [normSerialize_start_cons_notEnd n attrs (Token.start n2 aa :: Y2)
        (fun m hcon => Token.noConfusion (Option.some.inj hcon)), renderStartTag]
      simp [List.append_assoc]
    | charData ss =>
      refine ⟨'>' :: normSerialize (Token.charData ss :: Y2), fun attrs => ?_⟩
      rw [normSerialize_start_cons_notEnd n attrs (Token.charData ss :: Y2)
        (fun m hcon => Token.noConfusion (Option.some.inj hcon)), renderStartTag]
      simp [List.append_assoc]
    | comment ss =>
      refine ⟨'>' :: normSerialize (Token.comment ss :: Y2), fun attrs => ?_⟩
      rw [normSerialize_start_cons_notEnd n attrs (Token.comment ss :: Y2)
        (fun m hcon => Token.noConfusion (Option.some.inj hcon)), renderStartTag]
      simp [List.append_assoc]

/-- C1 (amended): suppose a modification's path matches exactly one
start tag of a well-formed, suppression-free document, that start tag
carries exactly one attribute with the modification's (nonempty) local
name, and no later modification in the list shares the path and
attribute.  Then the two runs — with and without that modification —
produce outputs of the form P ++ attribute-rendering ++ S for the SAME
prefix P (ending in the attribute's name and opening quote context) and
the SAME suffix S: the run with the modification carries its escaped
value as the attribute's value, and every other byte is unchanged. -/
theorem c1_amended (A B : List Token) (n old : List Char) (a1 a2 : List Attr)
    (ms1 ms2 : List Modification) (m : Modification)
    (hwf : wfTokens (A ++ Token.start n (a1 ++ ⟨m.attr, old⟩ :: a2) :: B) = true)
    (hattr : m.attr ≠ [])
    (hpath : pathAfter [] A ++ '/' :: n = m.path)
    (hA : m.path ∉ startPathsFrom [] A)
    (hB : m.path ∉ startPathsFrom (pathAfter [] A ++ '/' :: n) B)
    (ha1 : ∀ x ∈ a1, x.name ≠ m.attr) (ha2 : ∀ x ∈ a2, x.name ≠ m.attr)
    (hms2 : ∀ pat ∈ ms2, ¬(pat.path = m.path ∧ pat.attr = m.attr)) :
    ∃ P S oldv,
      frobTokens (A ++ Token.start n (a1 ++ ⟨m.attr, old⟩ :: a2) :: B) (ms1 ++ ms2)
        = .ok (P ++ (' ' :: (m.attr ++ '=' :: '"' :: escapeText true oldv) ++ ['"']) ++ S)
      ∧ frobTokens (A ++ Token.start n (a1 ++ ⟨m.attr, old⟩ :: a2) :: B) (ms1 ++ m :: ms2)
        = .ok (P ++ (' ' :: (m.attr ++ '=' :: '"' :: escapeText true m.value) ++ ['"']) ++ S) := by
  obtain ⟨T, hT⟩ := normSerialize_cons_start_shape n
    (mapTokens (ms1 ++ ms2) (pathAfter [] A ++ '/' :: n) B)
  refine ⟨normSerialize (mapTokens (ms1 ++ ms2) [] A)
      ++ '<' :: (n ++ renderAttrs (a1.map fun a =>
          ⟨a.name, finalValue (ms1 ++ ms2) (pathAfter [] A ++ '/' :: n) a.name a.value⟩)),
    renderAttrs (a2.map fun a =>
        ⟨a.name, finalValue (ms1 ++ ms2) (pathAfter [] A ++ '/' :: n) a.name a.value⟩) ++ T,
    finalValue (ms1 ++ ms2) (pathAfter [] A ++ '/' :: n) m.attr old, ?_, ?_⟩
  · rw [frobTokens_norm _ _ hwf, mapTokens_append]
    rw [show mapTokens (ms1 ++ ms2) (pathAfter [] A)
          (Token.start n (a1 ++ ⟨m.attr, old⟩ :: a2) :: B)
        = Token.start n (applyMods (ms1 ++ ms2) (pathAfter [] A ++ '/' :: n)
            (a1 ++ ⟨m.attr, old⟩ :: a2))
          :: mapTokens (ms1 ++ ms2) (pathAfter [] A ++ '/' :: n) B from rfl]
    have hstartHead : ∀ mm,
        (Token.start n (applyMods (ms1 ++ ms2) (pathAfter [] A ++ '/' :: n)
            (a1 ++ ⟨m.attr, old⟩ :: a2))
          :: mapTokens (ms1 ++ ms2) (pathAfter [] A ++ '/' :: n) B).head?
          ≠ some (Token.endTag mm) :=
      fun mm hcon => Token.noConfusion (Option.some.inj hcon)
    rw [normSerialize_append _ _ (Or.inl hstartHead), hT, applyMods_eq_map,
      List.map_append, List.map_cons, renderAttrs_append]
    rw [show renderAttrs
          ((⟨(⟨m.attr, old⟩ : Attr).name, finalValue (ms1 ++ ms2)
              (pathAfter [] A ++ '/' :: n) (⟨m.attr, old⟩ : Attr).name
              (⟨m.attr, old⟩ : Attr).value⟩ : Attr)
            :: a2.map fun a =>
              ⟨a.name, finalValue (ms1 ++ ms2) (pathAfter [] A ++ '/' :: n) a.name a.value⟩)
        = renderAttr ⟨m.attr, finalValue (ms1 ++ ms2) (pathAfter [] A ++ '/' :: n) m.attr old⟩
          ++ renderAttrs (a2.map fun a =>
              ⟨a.name, finalValue (ms1 ++ ms2) (pathAfter [] A ++ '/' :: n) a.name a.value⟩)
        from rfl]
    rw [show renderAttr
          ⟨m.attr, finalValue (ms1 ++ ms2) (pathAfter [] A ++ '/' :: n) m.attr old⟩
        = ' ' :: (m.attr ++ '=' :: '"'
            :: escapeText true (finalValue (ms1 ++ ms2)
              (pathAfter [] A ++ '/' :: n) m.attr old)) ++ ['"'] by
      simp [renderAttr, hattr]]
    simp [List.append_assoc]
  · rw [frobTokens_norm _ _ hwf, mapTokens_append]
    rw [show mapTokens (ms1 ++ m :: ms2) (pathAfter [] A)
          (Token.start n (a1 ++ ⟨m.attr, old⟩ :: a2) :: B)
        = Token.start n (applyMods (ms1 ++ m :: ms2) (pathAfter [] A ++ '/' :: n)
            (a1 ++ ⟨m.attr, old⟩ :: a2))
          :: mapTokens (ms1 ++ m :: ms2) (pathAfter [] A ++ '/' :: n) B from rfl]
    rw [mapTokens_erase_middle ms1 ms2 m A [] hA,
      mapTokens_erase_middle ms1 ms2 m B (pathAfter [] A ++ '/' :: n) hB]
    have hstartHead : ∀ mm,
        (Token.start n (applyMods (ms1 ++ m :: ms2) (pathAfter [] A ++ '/' :: n)
            (a1 ++ ⟨m.attr, old⟩ :: a2))
          :: mapTokens (ms1 ++ ms2) (pathAfter [] A ++ '/' :: n) B).head?
          ≠ some (Token.endTag mm) :=
      fun mm hcon => Token.noConfusion (Option.some.inj hcon)
    rw [normSerialize_append _ _ (Or.inl hstartHead), hT, applyMods_eq_map,
      List.map_append, List.map_cons, renderAttrs_append]
    have ha1eq : (a1.map fun a =>
          (⟨a.name, finalValue (ms1 ++ m :: ms2) (pathAfter [] A ++ '/' :: n)
            a.name a.value⟩ : Attr))
        = a1.map fun a =>
          ⟨a.name, finalValue (ms1 ++ ms2) (pathAfter [] A ++ '/' :: n) a.name a.value⟩ := by
      apply List.map_congr_left
      intro x hx
      rw [finalValue_erase_middle _ _ _ _ _ _ (fun hc => ha1 x hx hc.2)]
    have ha2eq : (a2.map fun a =>
          (⟨a.name, finalValue (ms1 ++ m :: ms2) (pathAfter [] A ++ '/' :: n)
            a.name a.value⟩ : Attr))
        = a2.map fun a =>
          ⟨a.name, finalValue (ms1 ++ ms2) (pathAfter [] A ++ '/' :: n) a.name a.value⟩ := by
      apply List.map_congr_left
      intro x hx
      rw [finalValue_erase_middle _ _ _ _ _ _ (fun hc => ha2 x hx hc.2)]
    have hmid : finalValue (ms1 ++ m :: ms2) (pathAfter [] A ++ '/' :: n) m.attr old
        = m.value :=
      finalValue_with_middle ms1 ms2 m _ _ old hpath rfl
        (fun pat hpat hc => hms2 pat hpat ⟨hc.1.symm.trans hpath, hc.2.symm⟩)
    rw [ha1eq]
    rw [show renderAttrs
          ((⟨(⟨m.attr, old⟩ : Attr).name, finalValue (ms1 ++ m :: ms2)
              (pathAfter [] A ++ '/' :: n) (⟨m.attr, old⟩ : Attr).name
              (⟨m.attr, old⟩ : Attr).value⟩ : Attr)
            :: a2.map fun a =>
              ⟨a.name, finalValue (ms1 ++ m :: ms2)
                (pathAfter [] A ++ '/' :: n) a.name a.value⟩)
        = renderAttr ⟨m.attr, finalValue (ms1 ++ m :: ms2)
            (pathAfter [] A ++ '/' :: n) m.attr old⟩
          ++ renderAttrs (a2.map fun a =>
              ⟨a.name, finalValue (ms1 ++ m :: ms2)
                (pathAfter [] A ++ '/' :: n) a.name a.value⟩)
        from rfl]
    rw [ha2eq, hmid]
    rw [show renderAttr ⟨m.attr, m.value⟩
        = ' ' :: (m.attr ++ '=' :: '"' :: escapeText true m.value) ++ ['"'] by
      simp [renderAttr, hattr]]
    simp [List.append_assoc]


/-- C1 witness: the amended statement at the spec's concrete scenario
`<server>\n  <connector port="8080"/>\n</server>` with modification
`/server/connector@port=8181`. -/
theorem c1_amended_witness :
    (wfTokens serverDoc = true
      ∧ serverMod.attr ≠ []
      ∧ pathAfter [] [Token.start "server".data [], Token.charData "\n  ".data]
          ++ '/' :: "connector".data = serverMod.path
      ∧ serverMod.path
          ∉ startPathsFrom [] [Token.start "server".data [], Token.charData "\n  ".data])
      ∧ ∃ P S oldv,
        frobTokens serverDoc []
          = .ok (P ++ (' ' :: (serverMod.attr ++ '=' :: '"' :: escapeText true oldv) ++ ['"']) ++ S)
        ∧ frobTokens serverDoc [serverMod]
          = .ok (P ++ (' ' :: (serverMod.attr ++ '=' :: '"' :: escapeText true serverMod.value) ++ ['"']) ++ S) := by
  refine ⟨⟨by decide, by decide, by decide, by decide⟩, ?_⟩
  have h := c1_amended
    [Token.start "server".data [], Token.charData "\n  ".data]
    [Token.endTag "connector".data, Token.charData "\n".data, Token.endTag "server".data]
    "connector".data "8080".data [] [] [] [] serverMod
    (by decide) (by decide) (by decide) (by decide) (by decide)
    (fun x hx => absurd hx (List.not_mem_nil x))
    (fun x hx => absurd hx (List.not_mem_nil x))
    (fun pat hpat => absurd hpat (List.not_mem_nil pat))
  exact h


/-- C4 witness: the characterization applied at concrete inputs: a
valid pattern parses to its triple and an invalid one fails fail-fast
with the quoting message. -/
theorem c4_amended_witness :
    parseModification "/a@b=c".data = .ok ⟨"/a".data, "b".data, "c".data⟩
      ∧ parseModifications ["x".data] = .error (invalidModMsg "x".data) := by
  constructor
  · exact (c4_amended.1 "/a@b=c".data "/a".data "b".data "c".data).mpr
      ⟨by decide, by decide, by decide, by decide⟩
  · exact c4_amended.2.2.2 [] "x".data [] (invalidModMsg "x".data)
      (fun x hx => absurd hx (List.not_mem_nil x)) rfl

/-- C10 witness: with two modifications sharing path and attribute, the
final value is the later one's. -/
theorem c10_witness :
    finalValue [⟨"/a".data, "p".data, "1".data⟩, ⟨"/a".data, "p".data, "2".data⟩]
        "/a".data "p".data "0".data = "2".data := by
  exact c10_last_modification_wins.2 [] [] [] ⟨"/a".data, "p".data, "1".data⟩
    ⟨"/a".data, "p".data, "2".data⟩ "/a".data "p".data "0".data rfl rfl rfl rfl
    (fun pat hpat => absurd hpat (List.not_mem_nil pat))

end Xmlfrob
